import Mathlib

/-!
# KeepKey firmware, `local/baremetal/coins.c`

A shallow embedding of the coin registry, the BIP44 path validator, the amount
formatter and the path-to-label renderer of `coins.c`, followed by theorems about
that embedding.

Conventions of the embedding.

* A C `char` is a Lean `Char`; the terminator is `NUL`.
* A C string that is only read (a coin name, a ticker, a lookup key) is a `CStr`: the
  characters before the terminator, none of which is `NUL`.
* A `char` buffer that is written (`buf`, `buf_fract`) is a `List Char` of the
  buffer's capacity; a read or write outside it has no defined result and yields
  `none`.
* `uint32_t *address_n` is the map from an index to the segment stored there, and
  `address_n_count` is a separate number, as in the C signature.
* A returned `const CoinType *` is the index of the row it points to, `none` for the
  null pointer.
-/

namespace KeepKey

/-! ## C strings -/

/-- The terminating character of a C string. -/
def NUL : Char := Char.ofNat 0

/-- A C string, given by the characters that precede its terminator. -/
structure CStr where
  chars : List Char
  nonul : NUL ∉ chars
deriving DecidableEq

/-- The C library `strlen` on a string that is only read. -/
def strlen (s : CStr) : Nat := s.chars.length

/-- Character-wise comparison behind `strcmp`: the difference of the first pair of
characters that differ, the end of a list standing for the terminator. -/
def strcmpChars : List Char → List Char → Int
  | [], [] => 0
  | [], d :: _ => -(d.toNat : Int)
  | c :: _, [] => (c.toNat : Int)
  | c :: cs, d :: ds => if c = d then strcmpChars cs ds else (c.toNat : Int) - (d.toNat : Int)

/-- The C library `strcmp`. -/
def strcmp (a b : CStr) : Int := strcmpChars a.chars b.chars

/-- Character-wise comparison behind `strncmp`: as `strcmpChars`, but at most `n`
characters are looked at. -/
def strncmpChars : Nat → List Char → List Char → Int
  | 0, _, _ => 0
  | _ + 1, [], [] => 0
  | _ + 1, [], d :: _ => -(d.toNat : Int)
  | _ + 1, c :: _, [] => (c.toNat : Int)
  | n + 1, c :: cs, d :: ds =>
    if c = d then strncmpChars n cs ds else (c.toNat : Int) - (d.toNat : Int)

/-- The C library `strncmp`. -/
def strncmp (a b : CStr) (n : Nat) : Int := strncmpChars n a.chars b.chars

/-! ## The registry -/

/-- The macros of `coins.h` that `coins.c` uses in the table and in the validator.
Their definitions are not part of `coins.c`, so the embedding takes them as given:
`ETHEREUM` and `ETHEREUM_CLS` are string literals, `NA` is the number stored in the
`address_type` and `address_type_p2sh` fields of the two Ethereum rows, and
`NODE_STRING_LENGTH` is the size handed to `snprintf`. -/
structure CoinsH where
  ETHEREUM : CStr
  ETHEREUM_CLS : CStr
  NA : Nat
  NODE_STRING_LENGTH : Nat
deriving DecidableEq

/-- The record `CoinType`, one field per initialiser of a row of `coins`. The fields
that `coins.c` reads are `coin_name`, `has_coin_shortcut`, `coin_shortcut`,
`address_type` and `bip44_account_path`. -/
structure CoinType where
  has_coin_name : Bool
  coin_name : CStr
  has_coin_shortcut : Bool
  coin_shortcut : CStr
  has_address_type : Bool
  address_type : Nat
  has_maxfee_kb : Bool
  maxfee_kb : Nat
  has_address_type_p2sh : Bool
  address_type_p2sh : Nat
  has_address_type_p2wpkh : Bool
  address_type_p2wpkh : Nat
  has_address_type_p2wsh : Bool
  address_type_p2wsh : Nat
  has_signed_message_header : Bool
  signed_message_header : CStr
  has_bip44_account_path : Bool
  bip44_account_path : Nat
deriving DecidableEq

/-- Modelled from the spec: `COINS_COUNT` is declared in `coins.h`, which is not part
of `coins.c`; the registry is a fixed-size table and `coins` lists nine rows. -/
def COINS_COUNT : Nat := 9

/-- The table `coins`, row by row. -/
def coins (h : CoinsH) : List CoinType :=
  [ ⟨true, ⟨"Bitcoin".toList, by decide⟩, true, ⟨"BTC".toList, by decide⟩, true, 0,
      true, 100000, true, 5, true, 6, true, 10,
      true, ⟨"\x18Bitcoin Signed Message:\n".toList, by decide⟩, true, 0x80000000⟩,
    ⟨true, ⟨"Testnet".toList, by decide⟩, true, ⟨"TEST".toList, by decide⟩, true, 111,
      true, 10000000, true, 196, true, 3, true, 40,
      true, ⟨"\x18Bitcoin Signed Message:\n".toList, by decide⟩, true, 0x80000001⟩,
    ⟨true, ⟨"Namecoin".toList, by decide⟩, true, ⟨"NMC".toList, by decide⟩, true, 52,
      true, 10000000, true, 5, false, 0, false, 0,
      true, ⟨"\x19Namecoin Signed Message:\n".toList, by decide⟩, true, 0x80000007⟩,
    ⟨true, ⟨"Litecoin".toList, by decide⟩, true, ⟨"LTC".toList, by decide⟩, true, 48,
      true, 1000000, true, 5, false, 0, false, 0,
      true, ⟨"\x19Litecoin Signed Message:\n".toList, by decide⟩, true, 0x80000002⟩,
    ⟨true, ⟨"Dogecoin".toList, by decide⟩, true, ⟨"DOGE".toList, by decide⟩, true, 30,
      true, 1000000000, true, 22, false, 0, false, 0,
      true, ⟨"\x19Dogecoin Signed Message:\n".toList, by decide⟩, true, 0x80000003⟩,
    ⟨true, ⟨"Dash".toList, by decide⟩, true, ⟨"DASH".toList, by decide⟩, true, 76,
      true, 100000, true, 16, false, 0, false, 0,
      true, ⟨"\x19DarkCoin Signed Message:\n".toList, by decide⟩, true, 0x80000005⟩,
    ⟨true, ⟨"tDash".toList, by decide⟩, true, ⟨"DASH".toList, by decide⟩, true, 140,
      true, 100000, true, 19, false, 0, false, 0,
      true, ⟨"\x19DarkCoin Signed Message:\n".toList, by decide⟩, true, 0x800000a5⟩,
    ⟨true, h.ETHEREUM, true, ⟨"ETH".toList, by decide⟩, true, h.NA,
      true, 100000, true, h.NA, false, 0, false, 0,
      true, ⟨"\x19Ethereum Signed Message:\n".toList, by decide⟩, true, 0x8000003c⟩,
    ⟨true, h.ETHEREUM_CLS, true, ⟨"ETC".toList, by decide⟩, true, h.NA,
      true, 100000, true, h.NA, false, 0, false, 0,
      true, ⟨"\x19Ethereum Signed Message:\n".toList, by decide⟩, true, 0x8000003d⟩ ]

/-! ## The path validator -/

/-- The test of `verify_bip44_node` that selects the coins whose address index must
be 0: `strncmp(coin->coin_name, ETHEREUM, strlen(ETHEREUM)) == 0 ||
strncmp(coin->coin_name, ETHEREUM_CLS, sizeof(ETHEREUM_CLS)) == 0`, where `sizeof` of
a string literal counts its terminator. -/
def isEthereumName (h : CoinsH) (coin : CoinType) : Bool :=
  strncmp coin.coin_name h.ETHEREUM (strlen h.ETHEREUM) == 0 ||
    strncmp coin.coin_name h.ETHEREUM_CLS (strlen h.ETHEREUM_CLS + 1) == 0

/-- The function `verify_bip44_node`. The `goto` out of the inner test leaves
`ret_stat` at `false`. -/
def verify_bip44_node (h : CoinsH) (coin : CoinType) (address_n : Nat → Nat)
    (address_n_count : Nat) : Bool :=
  if address_n_count = 5 ∧ address_n 3 = 0 then
    if isEthereumName h coin ∧ address_n 4 ≠ 0 then
      false
    else if address_n 0 = 0x8000002C ∧ address_n 1 = coin.bip44_account_path then
      true
    else
      false
  else
    false

/-! ## The lookups -/

/-- The loop of `coinByShortcut`: `n` rows remain, the next one is row `i`. -/
def coinByShortcut.loop (h : CoinsH) (shortcut : CStr) : Nat → Nat → Option Nat
  | 0, _ => none
  | n + 1, i =>
    match (coins h)[i]? with
    | none => none
    | some c =>
      if strcmp shortcut c.coin_shortcut = 0 then some i
      else coinByShortcut.loop h shortcut n (i + 1)

/-- The function `coinByShortcut`; `none` as argument is the null pointer. -/
def coinByShortcut (h : CoinsH) (shortcut : Option CStr) : Option Nat :=
  match shortcut with
  | none => none
  | some s => coinByShortcut.loop h s COINS_COUNT 0

/-- The loop of `coinByName`: `n` rows remain, the next one is row `i`. -/
def coinByName.loop (h : CoinsH) (name : CStr) : Nat → Nat → Option Nat
  | 0, _ => none
  | n + 1, i =>
    match (coins h)[i]? with
    | none => none
    | some c =>
      if strcmp name c.coin_name = 0 then some i
      else coinByName.loop h name n (i + 1)

/-- The function `coinByName`; `none` as argument is the null pointer. -/
def coinByName (h : CoinsH) (name : Option CStr) : Option Nat :=
  match name with
  | none => none
  | some s => coinByName.loop h s COINS_COUNT 0

/-- The loop of `coinByAddressType`: `n` rows remain, the next one is row `i`. -/
def coinByAddressType.loop (h : CoinsH) (address_type : Nat) : Nat → Nat → Option Nat
  | 0, _ => none
  | n + 1, i =>
    match (coins h)[i]? with
    | none => none
    | some c =>
      if address_type = c.address_type then some i
      else coinByAddressType.loop h address_type n (i + 1)

/-- The function `coinByAddressType`. Its parameter is a `uint8_t`: the argument
reaches the loop reduced modulo 256, and is compared with the stored field as is. -/
def coinByAddressType (h : CoinsH) (address_type : Nat) : Option Nat :=
  coinByAddressType.loop h (address_type % 256) COINS_COUNT 0

/-! ## Character buffers -/

/-- The C library `memset(buf, c, n)` on a buffer. -/
def memset (buf : List Char) (c : Char) (n : Nat) : Option (List Char) :=
  if n ≤ buf.length then some (List.replicate n c ++ buf.drop n) else none

/-- The C library `strlen` on a buffer: the index of its first `NUL`, and no result
when the buffer holds none. -/
def strlenBuf : List Char → Option Nat
  | [] => none
  | c :: cs => if c = NUL then some 0 else (strlenBuf cs).map (· + 1)

/-- The assignment `buf[i] = c`. -/
def store (buf : List Char) (i : Nat) (c : Char) : Option (List Char) :=
  if i < buf.length then some (buf.set i c) else none

/-- The C library `strncpy(buf + off, src, n)`, where `src` lists the characters of
the source string before its terminator: exactly `n` characters are written, those of
`src` first and `NUL` once `src` is exhausted. -/
def strncpy (buf : List Char) (off : Nat) (src : List Char) (n : Nat) :
    Option (List Char) :=
  if off + n ≤ buf.length then
    some (buf.take off ++ (src.take n ++ List.replicate (n - src.length) NUL) ++
      buf.drop (off + n))
  else none

/-- Modelled from the spec: `dec64_to_str` is declared in `util.h` and defined outside
`coins.c`; the spec treats decimal-to-string conversion as a given utility. It writes
the decimal digits of `dec64_val`, most significant first, from the start of `str`.
No terminator is written here; both callers clear the destination beforehand, so a
terminator written after the digits would leave the same buffer. -/
def dec64_to_str (dec64_val : Nat) (str : List Char) : Option (List Char) :=
  if (Nat.toDigits 10 dec64_val).length ≤ str.length then
    some (Nat.toDigits 10 dec64_val ++ str.drop (Nat.toDigits 10 dec64_val).length)
  else none

/-! ## The amount formatter -/

/-- Modelled from the spec: `COIN_FRACTION` is declared in `coins.h`, which is not
part of `coins.c`; the spec gives the registry's divisor as 100000000, eight
fractional digits, the same eight that `coin_amnt_to_str` pads the fraction to. -/
def COIN_FRACTION : Nat := 100000000

/-- The loop `while(i) { buf[strlen(buf)+i-1] = '0'; i--; }` from a count `i ≥ 0`. -/
def coin_amnt_to_str.padLoop : Nat → List Char → Option (List Char)
  | 0, buf => some buf
  | i + 1, buf =>
    match strlenBuf buf with
    | none => none
    | some l =>
      match store buf (l + (i + 1) - 1) '0' with
      | none => none
      | some buf1 => coin_amnt_to_str.padLoop i buf1

/-- The loop `while(i)` of the padding from any `int` count. A negative count moves
away from 0 with every `i--`, so the loop is left only through a write outside the
buffer or through signed overflow: no defined result. -/
def coin_amnt_to_str.pad (i : Int) (buf : List Char) : Option (List Char) :=
  match i with
  | Int.ofNat n => coin_amnt_to_str.padLoop n buf
  | Int.negSucc _ => none

/-- The loop `while(buf[i-1] == '0') { buf[i-1] = 0; i--; }`. At `i = 0` it reads
`buf[-1]`, outside the buffer. -/
def coin_amnt_to_str.stripLoop : Nat → List Char → Option (List Char)
  | 0, _ => none
  | i + 1, buf =>
    match buf[i]? with
    | none => none
    | some c =>
      if c = '0' then coin_amnt_to_str.stripLoop i (buf.set i NUL) else some buf

/-- Lines 161 to 170 of `coin_amnt_to_str`: the whole part and the decimal point. -/
def coin_amnt_to_str.wholePart (coin_whole_part : Nat) (buf : List Char) :
    Option (List Char) :=
  if coin_whole_part > 0 then do
    let buf ← dec64_to_str coin_whole_part buf
    let l ← strlenBuf buf
    store buf l '.'
  else
    strncpy buf 0 ['0', '.'] 2

/-- Lines 172 to 198 of `coin_amnt_to_str`: the fraction. The count
`i = 8 - strlen(buf_fract)` is an `int`. -/
def coin_amnt_to_str.fractionPart (coin_fraction_part : Nat) (buf_fract buf : List Char) :
    Option (List Char) :=
  if coin_fraction_part > 0 then do
    let buf_fract ← dec64_to_str coin_fraction_part buf_fract
    let lf ← strlenBuf buf_fract
    let buf ← coin_amnt_to_str.pad (8 - (lf : Int)) buf
    let l ← strlenBuf buf
    let lf ← strlenBuf buf_fract
    let buf ← strncpy buf l (buf_fract.take lf) lf
    let i ← strlenBuf buf
    coin_amnt_to_str.stripLoop i buf
  else do
    let l ← strlenBuf buf
    store buf l '0'

/-- Lines 199 to 204 of `coin_amnt_to_str`: the space and the ticker. -/
def coin_amnt_to_str.shortcutPart (coin : CoinType) (buf : List Char) :
    Option (List Char) :=
  if coin.has_coin_shortcut then do
    let l ← strlenBuf buf
    let buf ← store buf l ' '
    let l ← strlenBuf buf
    strncpy buf l coin.coin_shortcut.chars (strlen coin.coin_shortcut)
  else
    some buf

/-- The function `coin_amnt_to_str`. The result is the content of `buf` on return.
`len` is an `int` handed to `memset` as a `size_t`: a negative value becomes a size
beyond any object, so the `memset` has no defined result. The local `buf_fract` is
ten characters, all cleared by its `memset`. -/
def coin_amnt_to_str (coin : CoinType) (amnt : Nat) (buf : List Char) (len : Int) :
    Option (List Char) := do
  let buf ← if 0 ≤ len then memset buf NUL len.toNat else none
  let buf_fract ← memset (List.replicate 10 NUL) NUL 10
  let coin_whole_part := amnt / COIN_FRACTION
  let coin_fraction_part := amnt % COIN_FRACTION
  let buf ← coin_amnt_to_str.wholePart coin_whole_part buf
  let buf ← coin_amnt_to_str.fractionPart coin_fraction_part buf_fract buf
  coin_amnt_to_str.shortcutPart coin buf

/-- The characters of a buffer before its first `NUL`: the string it holds. -/
def cstring (buf : List Char) : List Char := buf.takeWhile (fun c => c != NUL)

/-! ## The path-to-label renderer -/

/-- The call `snprintf(node_str, size, "%s account #%lu", name, n)`, as the string
left in `node_str`: the formatted text cut to `size - 1` characters, and `node_str`
as it was when `size` is 0. -/
def snprintf_account (node_str : List Char) (size : Nat) (name : CStr) (n : Nat) :
    List Char :=
  if size = 0 then node_str
  else (name.chars ++ " account #".toList ++ Nat.toDigits 10 n).take (size - 1)

/-- The function `bip44_node_to_string`: the returned status and the string held by
`node_str` on return. -/
def bip44_node_to_string (h : CoinsH) (coin : CoinType) (node_str : List Char)
    (address_n : Nat → Nat) (address_n_count : Nat) : Bool × List Char :=
  if verify_bip44_node h coin address_n address_n_count then
    (true, snprintf_account node_str h.NODE_STRING_LENGTH coin.coin_name
      (address_n 2 &&& 0x7ffffff))
  else
    (false, node_str)

/-! ## Vocabulary of the statements -/

/-- The loop shape shared by the three lookups: scan `n` rows of `tbl` from row `i`
and return the index of the first row that passes the test `p`. -/
def scanLoop (tbl : List CoinType) (p : CoinType → Bool) : Nat → Nat → Option Nat
  | 0, _ => none
  | n + 1, i =>
    match tbl[i]? with
    | none => none
    | some c => if p c then some i else scanLoop tbl p n (i + 1)

/-- The result `r` of a lookup is the row of lowest index of `tbl` that satisfies `p`:
`some k` when row `k` satisfies `p` and no earlier row does, `none` when no row
satisfies `p`. -/
def IsFirstRow (tbl : List CoinType) (p : CoinType → Prop) (r : Option Nat) : Prop :=
  match r with
  | some k =>
    (∃ c : CoinType, tbl[k]? = some c ∧ p c) ∧
      ∀ (j : Nat) (c : CoinType), j < k → tbl[j]? = some c → ¬p c
  | none => ∀ (j : Nat) (c : CoinType), tbl[j]? = some c → ¬p c

/-- The fraction as the spec words it: `"0"` for a zero fraction, and otherwise the
decimal rendering left-padded with `'0'` to 8 characters and then stripped of its
trailing `'0'` characters. -/
def Spec.fractionDigits (frac : Nat) : List Char :=
  if frac = 0 then ['0']
  else (List.leftpad 8 '0' (Nat.toDigits 10 frac)).rdropWhile (fun c => c == '0')

/-- The amount string as the spec words it for the divisor 100000000: the decimal
rendering of the whole part, a point, the fraction, and a space followed by the ticker
when the coin has one. -/
def Spec.formatAmount (coin : CoinType) (amount : Nat) : List Char :=
  Nat.toDigits 10 (amount / 100000000) ++ ['.'] ++
    Spec.fractionDigits (amount % 100000000) ++
    (if coin.has_coin_shortcut then ' ' :: coin.coin_shortcut.chars else [])

/-- The room `coin_amnt_to_str` needs in `buf`, in characters: the whole part, the
point, the eight fraction digits it writes before it drops the trailing zeros, the
space and the ticker when the coin has one, and the terminator. -/
def roomNeeded (coin : CoinType) (amnt : Nat) : Nat :=
  (Nat.toDigits 10 (amnt / COIN_FRACTION)).length + 1 + 8 +
    (if coin.has_coin_shortcut then 1 + strlen coin.coin_shortcut else 0) + 1

/-- The value of a run of decimal digits, most significant first. -/
def digitsValue (l : List Char) : Nat :=
  l.foldl (fun acc c => 10 * acc + (c.toNat - '0'.toNat)) 0

/-- The run of characters of an amount string before its `'.'`. -/
def wholeRun (s : List Char) : List Char := s.takeWhile (fun c => c != '.')

/-- The run of characters of an amount string between its `'.'` and the end of the
string or the first space after the point. -/
def fractionRun (s : List Char) : List Char :=
  ((s.dropWhile (fun c => c != '.')).drop 1).takeWhile (fun c => c != ' ')

/-- A character is a decimal digit. -/
def IsDigit (c : Char) : Prop := ∃ d, d < 10 ∧ c = Nat.digitChar d

/-- One assignment of the macros of `coins.h`: the two names as string literals, a
placeholder `NA` that does not fit in 8 bits, and a label size of 50. -/
def sampleH : CoinsH :=
  ⟨⟨"Ethereum".toList, by decide⟩, ⟨"ETH Classic".toList, by decide⟩, 0xFFFF, 50⟩

/-- The array that holds the segments of `l`, and 0 in every later cell. -/
def pathOf (l : List Nat) : Nat → Nat := fun i => l.getD i 0

/-- The Bitcoin row of `coins`, which does not depend on the macros. -/
def bitcoinRow : CoinType :=
  ⟨true, ⟨"Bitcoin".toList, by decide⟩, true, ⟨"BTC".toList, by decide⟩, true, 0,
    true, 100000, true, 5, true, 6, true, 10,
    true, ⟨"\x18Bitcoin Signed Message:\n".toList, by decide⟩, true, 0x80000000⟩

/-- The Ethereum row of `coins` under `sampleH`. -/
def ethereumRow : CoinType :=
  ⟨true, sampleH.ETHEREUM, true, ⟨"ETH".toList, by decide⟩, true, sampleH.NA,
    true, 100000, true, sampleH.NA, false, 0, false, 0,
    true, ⟨"\x19Ethereum Signed Message:\n".toList, by decide⟩, true, 0x8000003c⟩

/-! ## Theorems -/

/-! ### C strings -/

/-- The only character with code 0 is the terminator. -/
theorem toNat_eq_zero_iff (c : Char) : c.toNat = 0 ↔ c = NUL := by
  constructor
  · intro h
    apply Char.ext
    apply UInt32.ext
    simpa [Char.toNat, UInt32.toNat] using h
  · rintro rfl; rfl

/-- Two different characters have a nonzero difference of codes. -/
theorem toNat_sub_ne_zero {c d : Char} (h : c ≠ d) : (c.toNat : Int) - (d.toNat : Int) ≠ 0 := by
  intro h0
  apply h
  have : c.toNat = d.toNat := by omega
  apply Char.ext
  apply UInt32.ext
  simpa [Char.toNat, UInt32.toNat] using this

/-- On strings without `NUL`, the comparison returns 0 exactly for equal strings. -/
theorem strcmpChars_eq_zero_iff : ∀ (a b : List Char), NUL ∉ a → NUL ∉ b →
    (strcmpChars a b = 0 ↔ a = b)
  | [], [], _, _ => by simp [strcmpChars]
  | [], d :: ds, _, hb => by
    have : d ≠ NUL := fun h => hb (by simp [h])
    simp [strcmpChars, toNat_eq_zero_iff, this]
  | c :: cs, [], ha, _ => by
    have : c ≠ NUL := fun h => ha (by simp [h])
    simp [strcmpChars, toNat_eq_zero_iff, this]
  | c :: cs, d :: ds, ha, hb => by
    have ha2 : NUL ∉ cs := fun h => ha (List.mem_cons_of_mem _ h)
    have hb2 : NUL ∉ ds := fun h => hb (List.mem_cons_of_mem _ h)
    by_cases hcd : c = d
    · simp [strcmpChars, hcd, strcmpChars_eq_zero_iff cs ds ha2 hb2]
    · simp [strcmpChars, hcd, toNat_sub_ne_zero hcd]

/-- Compared over the length of `b`, the result is 0 exactly when `b` is a prefix of `a`. -/
theorem strncmpChars_length_eq_zero_iff : ∀ (a b : List Char), NUL ∉ a → NUL ∉ b →
    (strncmpChars b.length a b = 0 ↔ b <+: a)
  | _, [], _, _ => by simp [strncmpChars]
  | [], d :: ds, _, hb => by
    have : d ≠ NUL := fun h => hb (by simp [h])
    simp [strncmpChars, toNat_eq_zero_iff, this]
  | c :: cs, d :: ds, ha, hb => by
    have ha2 : NUL ∉ cs := fun h => ha (List.mem_cons_of_mem _ h)
    have hb2 : NUL ∉ ds := fun h => hb (List.mem_cons_of_mem _ h)
    by_cases hcd : c = d
    · simp [strncmpChars, hcd, strncmpChars_length_eq_zero_iff cs ds ha2 hb2, List.cons_prefix_cons]
    · have hdc : ¬ d = c := fun h => hcd h.symm
      simp [strncmpChars, hcd, hdc, toNat_sub_ne_zero hcd, List.cons_prefix_cons]

/-- Compared over the length of `b` and its terminator, the result is 0 exactly when the
strings are equal. -/
theorem strncmpChars_succ_length_eq_zero_iff : ∀ (a b : List Char), NUL ∉ a → NUL ∉ b →
    (strncmpChars (b.length + 1) a b = 0 ↔ a = b)
  | [], [], _, _ => by simp [strncmpChars]
  | [], d :: ds, _, hb => by
    have : d ≠ NUL := fun h => hb (by simp [h])
    simp [strncmpChars, toNat_eq_zero_iff, this]
  | c :: cs, [], ha, _ => by
    have : c ≠ NUL := fun h => ha (by simp [h])
    simp [strncmpChars, toNat_eq_zero_iff, this]
  | c :: cs, d :: ds, ha, hb => by
    have ha2 : NUL ∉ cs := fun h => ha (List.mem_cons_of_mem _ h)
    have hb2 : NUL ∉ ds := fun h => hb (List.mem_cons_of_mem _ h)
    by_cases hcd : c = d
    · simp [strncmpChars, hcd, strncmpChars_succ_length_eq_zero_iff cs ds ha2 hb2]
    · simp [strncmpChars, hcd, toNat_sub_ne_zero hcd]

/-- Two C strings with the same characters are equal. -/
theorem CStr.ext_chars {a b : CStr} (h : a.chars = b.chars) : a = b := by
  cases a; cases b; simp_all

/-- The library `strcmp` returns 0 exactly for equal strings. -/
theorem strcmp_eq_zero_iff (a b : CStr) : strcmp a b = 0 ↔ a = b := by
  unfold strcmp
  rw [strcmpChars_eq_zero_iff a.chars b.chars a.nonul b.nonul]
  exact ⟨CStr.ext_chars, fun h => by rw [h]⟩

/-- The name test of the validator: the name starts with `ETHEREUM` or is `ETHEREUM_CLS`. -/
theorem isEthereumName_iff (h : CoinsH) (coin : CoinType) :
    isEthereumName h coin = true ↔
      (h.ETHEREUM.chars <+: coin.coin_name.chars ∨ coin.coin_name = h.ETHEREUM_CLS) := by
  unfold isEthereumName strncmp strlen
  rw [Bool.or_eq_true, beq_iff_eq, beq_iff_eq,
    strncmpChars_length_eq_zero_iff _ _ coin.coin_name.nonul h.ETHEREUM.nonul,
    strncmpChars_succ_length_eq_zero_iff _ _ coin.coin_name.nonul h.ETHEREUM_CLS.nonul]
  exact or_congr Iff.rfl ⟨CStr.ext_chars, fun h => by rw [h]⟩

/-! ### The path validator -/

/-- C1: `verify_bip44_node` returns true if and only if the count is 5, `path[3]` is 0,
`path[0]` is `0x8000002C`, `path[1]` is the coin's `bip44_account_path`, and `path[4]`
is 0 whenever the coin's name passes the validator's name test, that is, whenever it
starts with `ETHEREUM` or equals `ETHEREUM_CLS`. -/
theorem verify_bip44_node_iff (h : CoinsH) (coin : CoinType) (address_n : Nat → Nat)
    (address_n_count : Nat) :
    verify_bip44_node h coin address_n address_n_count = true ↔
      address_n_count = 5 ∧ address_n 3 = 0 ∧ address_n 0 = 0x8000002C ∧
        address_n 1 = coin.bip44_account_path ∧
        ((h.ETHEREUM.chars <+: coin.coin_name.chars ∨ coin.coin_name = h.ETHEREUM_CLS) →
          address_n 4 = 0) := by
  rw [← isEthereumName_iff]
  unfold verify_bip44_node
  split_ifs with h1 h2 h3
  · simp only [Bool.false_eq_true, false_iff]
    rintro ⟨_, _, _, _, h5⟩
    exact h2.2 (h5 h2.1)
  · simp only [true_iff]
    refine ⟨h1.1, h1.2, h3.1, h3.2, fun he => ?_⟩
    by_contra h4
    exact h2 ⟨he, h4⟩
  · simp only [Bool.false_eq_true, false_iff]
    rintro ⟨_, _, h5, h6, _⟩
    exact h3 ⟨h5, h6⟩
  · simp only [Bool.false_eq_true, false_iff]
    rintro ⟨h5, h6, _⟩
    exact h1 ⟨h5, h6⟩

/-- Acceptance fixes the coin-type segment: an accepted path has the coin's
`bip44_account_path` at index 1. -/
theorem verify_bip44_node_coin_type {h : CoinsH} {coin : CoinType} {address_n : Nat → Nat}
    {address_n_count : Nat}
    (hv : verify_bip44_node h coin address_n address_n_count = true) :
    address_n 1 = coin.bip44_account_path := by
  unfold verify_bip44_node at hv
  split_ifs at hv with h1 h2 h3
  exact h3.2

/-- The `bip44_account_path` column of the table, whatever the macros are. -/
theorem coins_bip44_account_path (h : CoinsH) :
    (coins h).map (fun c => c.bip44_account_path) =
      [0x80000000, 0x80000001, 0x80000007, 0x80000002, 0x80000003, 0x80000005,
        0x800000a5, 0x8000003c, 0x8000003d] := rfl

/-- C3: no path is accepted for two distinct rows of `coins`: if rows `i` and `j` are
different rows of the table, `verify_bip44_node` does not return true for both on the
same path and count; and the nine `bip44_account_path` values of the table are pairwise
distinct. -/
theorem verify_bip44_node_row_exclusive (h : CoinsH) (address_n : Nat → Nat)
    (address_n_count : Nat) (i j : Nat) (ci cj : CoinType)
    (hi : (coins h)[i]? = some ci) (hj : (coins h)[j]? = some cj) (hij : i ≠ j) :
    ¬(verify_bip44_node h ci address_n address_n_count = true ∧
        verify_bip44_node h cj address_n address_n_count = true) ∧
      ((coins h).map (fun c => c.bip44_account_path)).Nodup := by
  refine ⟨?_, by rw [coins_bip44_account_path]; decide⟩
  rintro ⟨hvi, hvj⟩
  have hpi := verify_bip44_node_coin_type hvi
  have hpj := verify_bip44_node_coin_type hvj
  have hcol := coins_bip44_account_path h
  have hi2 : ((coins h).map (fun c => c.bip44_account_path))[i]? = some (address_n 1) := by
    rw [List.getElem?_map, hi, hpi]; rfl
  have hj2 : ((coins h).map (fun c => c.bip44_account_path))[j]? = some (address_n 1) := by
    rw [List.getElem?_map, hj, hpj]; rfl
  rw [hcol] at hi2 hj2
  have hnd : ([0x80000000, 0x80000001, 0x80000007, 0x80000002, 0x80000003, 0x80000005,
      0x800000a5, 0x8000003c, 0x8000003d] : List Nat).Nodup := by decide
  have hil := (List.getElem?_eq_some.mp hi2)
  have hjl := (List.getElem?_eq_some.mp hj2)
  obtain ⟨hil, hie⟩ := hil
  obtain ⟨hjl, hje⟩ := hjl
  exact hij ((List.Nodup.getElem_inj_iff hnd).mp (hie.trans hje.symm))

/-- C3, at a concrete input: the path `44'/0'/0/0/0` is accepted for the Bitcoin row
(row 0) and hence not for the Testnet row (row 1). -/
theorem verify_bip44_node_row_exclusive_witness :
    ∃ ci cj, (coins sampleH)[0]? = some ci ∧ (coins sampleH)[1]? = some cj ∧
      verify_bip44_node sampleH ci (pathOf [0x8000002C, 0x80000000, 0, 0, 0]) 5 = true ∧
      ¬(verify_bip44_node sampleH ci (pathOf [0x8000002C, 0x80000000, 0, 0, 0]) 5 = true ∧
        verify_bip44_node sampleH cj (pathOf [0x8000002C, 0x80000000, 0, 0, 0]) 5 = true) :=
  ⟨_, _, rfl, rfl, by decide,
    (verify_bip44_node_row_exclusive sampleH _ 5 0 1 _ _ rfl rfl (by decide)).1⟩

/-- C6: for the Ethereum row (row 7) and the Ethereum Classic row (row 8) of `coins`,
a path whose address index `path[4]` is not 0 is rejected, whatever the count and the
other segments are. -/
theorem verify_bip44_node_ethereum_rows (h : CoinsH) (coin : CoinType)
    (address_n : Nat → Nat) (address_n_count : Nat)
    (hrow : (coins h)[7]? = some coin ∨ (coins h)[8]? = some coin)
    (h4 : address_n 4 ≠ 0) :
    verify_bip44_node h coin address_n address_n_count = false := by
  have hname : isEthereumName h coin = true := by
    rw [isEthereumName_iff]
    rcases hrow with hrow | hrow
    · have hc : coin.coin_name = h.ETHEREUM := by
        have := Option.some.inj hrow
        rw [← this]
        rfl
      exact Or.inl (by rw [hc])
    · have hc : coin.coin_name = h.ETHEREUM_CLS := by
        have := Option.some.inj hrow
        rw [← this]
        rfl
      exact Or.inr hc
  unfold verify_bip44_node
  split_ifs with h1 h2 h3
  · rfl
  · exact absurd ⟨hname, h4⟩ h2
  · rfl
  · rfl

/-- C6, at the input of the spec: `44'/60'/0/0/5` against the Ethereum row. -/
theorem verify_bip44_node_ethereum_rows_witness :
    (coins sampleH)[7]? = some ethereumRow ∧
      pathOf [0x8000002C, 0x8000003C, 0, 0, 5] 4 ≠ 0 ∧
      verify_bip44_node sampleH ethereumRow (pathOf [0x8000002C, 0x8000003C, 0, 0, 5]) 5 =
        false :=
  ⟨rfl, by decide,
    verify_bip44_node_ethereum_rows sampleH ethereumRow _ 5 (Or.inl rfl) (by decide)⟩

/-- C9: the verdict does not depend on the account segment. Two paths of the same
count that agree at every index other than 2 get the same verdict, and so does a path
after its segment 2 is replaced by any value `v`. -/
theorem verify_bip44_node_account_free (h : CoinsH) (coin : CoinType)
    (a b : Nat → Nat) (address_n_count : Nat) (hab : ∀ i, i ≠ 2 → a i = b i) :
    verify_bip44_node h coin a address_n_count =
        verify_bip44_node h coin b address_n_count ∧
      ∀ v, verify_bip44_node h coin (Function.update a 2 v) address_n_count =
        verify_bip44_node h coin b address_n_count := by
  have key : ∀ x y : Nat → Nat, (∀ i, i ≠ 2 → x i = y i) →
      verify_bip44_node h coin x address_n_count =
        verify_bip44_node h coin y address_n_count := by
    intro x y hxy
    unfold verify_bip44_node
    rw [hxy 0 (by decide), hxy 1 (by decide), hxy 3 (by decide), hxy 4 (by decide)]
  refine ⟨key a b hab, fun v => key _ b fun i hi => ?_⟩
  rw [Function.update_noteq hi]
  exact hab i hi

/-- C9, at a concrete input: `44'/0'/0/0/0` and `44'/0'/7'/0/0` are both accepted for
the Bitcoin row. -/
theorem verify_bip44_node_account_free_witness :
    verify_bip44_node sampleH bitcoinRow (pathOf [0x8000002C, 0x80000000, 0, 0, 0]) 5 = true ∧
      (verify_bip44_node sampleH bitcoinRow (pathOf [0x8000002C, 0x80000000, 0, 0, 0]) 5 =
          verify_bip44_node sampleH bitcoinRow
            (pathOf [0x8000002C, 0x80000000, 0x80000007, 0, 0]) 5 ∧
        ∀ v, verify_bip44_node sampleH bitcoinRow
            (Function.update (pathOf [0x8000002C, 0x80000000, 0, 0, 0]) 2 v) 5 =
          verify_bip44_node sampleH bitcoinRow
            (pathOf [0x8000002C, 0x80000000, 0x80000007, 0, 0]) 5) :=
  ⟨by decide,
    verify_bip44_node_account_free sampleH bitcoinRow _ _ 5 (fun i hi =>
      match i, hi with
      | 0, _ => rfl
      | 1, _ => rfl
      | 2, hi => absurd rfl hi
      | _ + 3, _ => rfl)⟩

/-- Acceptance in terms of the name test as the code computes it. -/
theorem verify_bip44_node_eq_true {h : CoinsH} {coin : CoinType} {address_n : Nat → Nat}
    {address_n_count : Nat} :
    verify_bip44_node h coin address_n address_n_count = true ↔
      (address_n_count = 5 ∧ address_n 3 = 0) ∧
        ¬(isEthereumName h coin = true ∧ address_n 4 ≠ 0) ∧
        (address_n 0 = 0x8000002C ∧ address_n 1 = coin.bip44_account_path) := by
  unfold verify_bip44_node
  split_ifs with h1 h2 h3
  · exact ⟨fun hf => absurd hf (by decide), fun hr => absurd h2 hr.2.1⟩
  · exact ⟨fun _ => ⟨h1, h2, h3⟩, fun _ => rfl⟩
  · exact ⟨fun hf => absurd hf (by decide), fun hr => absurd hr.2.2 h3⟩
  · exact ⟨fun hf => absurd hf (by decide), fun hr => absurd hr.1 h1⟩

/-- C13: on an accepted path, a change of one required segment is rejected: any other
value at index 0, 1 or 3; any nonzero value at index 4 when the coin's name passes the
validator's name test (it starts with `ETHEREUM` or equals `ETHEREUM_CLS`); and any
count other than 5. -/
theorem verify_bip44_node_single_change (h : CoinsH) (coin : CoinType)
    (address_n : Nat → Nat) (address_n_count : Nat)
    (hv : verify_bip44_node h coin address_n address_n_count = true) :
    (∀ v, v ≠ address_n 0 →
        verify_bip44_node h coin (Function.update address_n 0 v) address_n_count = false) ∧
      (∀ v, v ≠ address_n 1 →
        verify_bip44_node h coin (Function.update address_n 1 v) address_n_count = false) ∧
      (∀ v, v ≠ address_n 3 →
        verify_bip44_node h coin (Function.update address_n 3 v) address_n_count = false) ∧
      ((h.ETHEREUM.chars <+: coin.coin_name.chars ∨ coin.coin_name = h.ETHEREUM_CLS) →
        ∀ v, v ≠ 0 →
          verify_bip44_node h coin (Function.update address_n 4 v) address_n_count = false) ∧
      (∀ m, m ≠ 5 → verify_bip44_node h coin address_n m = false) := by
  obtain ⟨⟨h5, h3⟩, _, h0, h1⟩ := verify_bip44_node_eq_true.mp hv
  have reject : ∀ (a : Nat → Nat) (m : Nat),
      ¬((m = 5 ∧ a 3 = 0) ∧ ¬(isEthereumName h coin = true ∧ a 4 ≠ 0) ∧
        (a 0 = 0x8000002C ∧ a 1 = coin.bip44_account_path)) →
      verify_bip44_node h coin a m = false := by
    intro a m hn
    cases hr : verify_bip44_node h coin a m with
    | false => rfl
    | true => exact absurd (verify_bip44_node_eq_true.mp hr) hn
  refine ⟨fun v hne => reject _ _ ?_, fun v hne => reject _ _ ?_, fun v hne => reject _ _ ?_,
    fun he v hne => reject _ _ ?_, fun m hm => reject _ _ ?_⟩
  · rintro ⟨_, _, hx, _⟩
    rw [Function.update_same] at hx
    exact hne (hx.trans h0.symm)
  · rintro ⟨_, _, _, hx⟩
    rw [Function.update_same] at hx
    exact hne (hx.trans h1.symm)
  · rintro ⟨⟨_, hx⟩, _⟩
    rw [Function.update_same] at hx
    exact hne (hx.trans h3.symm)
  · rintro ⟨_, hx, _⟩
    rw [Function.update_same] at hx
    exact hx ⟨(isEthereumName_iff h coin).mpr he, hne⟩
  · rintro ⟨⟨hx, _⟩, _⟩
    exact hm hx

/-- C13, at a concrete input: `44'/60'/0/0/0` is accepted for the Ethereum row; with 5
at index 4, with 1 at index 3, or with the count 4 it is rejected. -/
theorem verify_bip44_node_single_change_witness :
    verify_bip44_node sampleH ethereumRow (pathOf [0x8000002C, 0x8000003C, 0, 0, 0]) 5 = true ∧
      verify_bip44_node sampleH ethereumRow
        (Function.update (pathOf [0x8000002C, 0x8000003C, 0, 0, 0]) 4 5) 5 = false ∧
      verify_bip44_node sampleH ethereumRow
        (Function.update (pathOf [0x8000002C, 0x8000003C, 0, 0, 0]) 3 1) 5 = false ∧
      verify_bip44_node sampleH ethereumRow (pathOf [0x8000002C, 0x8000003C, 0, 0, 0]) 4 =
        false :=
  ⟨by decide,
    (verify_bip44_node_single_change sampleH ethereumRow _ 5 (by decide)).2.2.2.1
      (Or.inl (List.prefix_refl _)) 5 (by decide),
    (verify_bip44_node_single_change sampleH ethereumRow _ 5 (by decide)).2.2.1 1 (by decide),
    (verify_bip44_node_single_change sampleH ethereumRow _ 5 (by decide)).2.2.2.2 4
      (by decide)⟩

/-- C14, as stated, fails: the path `44'/0'/0/0/5`, whose address index is 5, is
accepted for the Bitcoin row (row 0). -/
theorem verify_bip44_node_accepts_address_index :
    (coins sampleH)[0]? = some bitcoinRow ∧
      verify_bip44_node sampleH bitcoinRow (pathOf [0x8000002C, 0x80000000, 0, 0, 5]) 5 =
        true ∧
      pathOf [0x8000002C, 0x80000000, 0, 0, 5] 4 = 5 := by
  decide

/-- C14, amended: every accepted path has the form `44' / bip44_account_path /
account / 0 / address index`: `path[0]` is `0x8000002C`, `path[1]` is the coin's
`bip44_account_path` and the change segment `path[3]` is 0. The address index `path[4]`
is 0 when the coin's name passes the validator's name test (it starts with `ETHEREUM`
or equals `ETHEREUM_CLS`); for any other coin every address index is accepted. -/
theorem verify_bip44_node_form (h : CoinsH) (coin : CoinType) (address_n : Nat → Nat)
    (address_n_count : Nat)
    (hv : verify_bip44_node h coin address_n address_n_count = true) :
    address_n_count = 5 ∧ address_n 0 = 0x8000002C ∧
      address_n 1 = coin.bip44_account_path ∧ address_n 3 = 0 ∧
      ((h.ETHEREUM.chars <+: coin.coin_name.chars ∨ coin.coin_name = h.ETHEREUM_CLS) →
        address_n 4 = 0) ∧
      (¬(h.ETHEREUM.chars <+: coin.coin_name.chars ∨ coin.coin_name = h.ETHEREUM_CLS) →
        ∀ v, verify_bip44_node h coin (Function.update address_n 4 v) address_n_count =
          true) := by
  obtain ⟨⟨h5, h3⟩, h4, h0, h1⟩ := verify_bip44_node_eq_true.mp hv
  refine ⟨h5, h0, h1, h3, fun he => ?_, fun hne v => ?_⟩
  · by_contra hx
    exact h4 ⟨(isEthereumName_iff h coin).mpr he, hx⟩
  · refine verify_bip44_node_eq_true.mpr ⟨⟨h5, ?_⟩, fun hx => ?_, ?_, ?_⟩
    · rw [Function.update_noteq (by decide)]
      exact h3
    · exact hne ((isEthereumName_iff h coin).mp hx.1)
    · rw [Function.update_noteq (by decide)]
      exact h0
    · rw [Function.update_noteq (by decide)]
      exact h1

/-- C14, amended, at a concrete input: `44'/60'/0/0/0` is accepted for the Ethereum
row, and its segments 3 and 4 are 0. -/
theorem verify_bip44_node_form_witness :
    verify_bip44_node sampleH ethereumRow (pathOf [0x8000002C, 0x8000003C, 0, 0, 0]) 5 = true ∧
      pathOf [0x8000002C, 0x8000003C, 0, 0, 0] 3 = 0 ∧
      pathOf [0x8000002C, 0x8000003C, 0, 0, 0] 4 = 0 :=
  ⟨by decide,
    (verify_bip44_node_form sampleH ethereumRow _ 5 (by decide)).2.2.2.1,
    (verify_bip44_node_form sampleH ethereumRow _ 5 (by decide)).2.2.2.2.1
      (Or.inl (List.prefix_refl _))⟩

/-- The presence flag and the value of `bip44_account_path`, row by row, whatever the
macros are. -/
theorem coins_has_bip44_account_path (h : CoinsH) :
    (coins h).map (fun c => (c.has_bip44_account_path, c.bip44_account_path)) =
      [(true, 0x80000000), (true, 0x80000001), (true, 0x80000007), (true, 0x80000002),
        (true, 0x80000003), (true, 0x80000005), (true, 0x800000a5), (true, 0x8000003c),
        (true, 0x8000003d)] := rfl

/-- C17: in every row of `coins` the constant `bip44_account_path` is present and is a
32-bit value with bit 31 set; hence a path that `verify_bip44_node` accepts for a row
of the table has `path[0]` and `path[1]` hardened, that is, at least `0x80000000` with
bit 31 set. -/
theorem verify_bip44_node_registry_hardened (h : CoinsH) (i : Nat) (coin : CoinType)
    (address_n : Nat → Nat) (address_n_count : Nat)
    (hrow : (coins h)[i]? = some coin) :
    coin.has_bip44_account_path = true ∧ 0x80000000 ≤ coin.bip44_account_path ∧
      coin.bip44_account_path < 2 ^ 32 ∧ coin.bip44_account_path.testBit 31 = true ∧
      (verify_bip44_node h coin address_n address_n_count = true →
        0x80000000 ≤ address_n 0 ∧ (address_n 0).testBit 31 = true ∧
          0x80000000 ≤ address_n 1 ∧ (address_n 1).testBit 31 = true) := by
  have hmem : (coin.has_bip44_account_path, coin.bip44_account_path) ∈
      (coins h).map (fun c => (c.has_bip44_account_path, c.bip44_account_path)) :=
    List.mem_map_of_mem _ (List.getElem?_mem hrow)
  rw [coins_has_bip44_account_path] at hmem
  have hall : ∀ p ∈ ([(true, 0x80000000), (true, 0x80000001), (true, 0x80000007),
      (true, 0x80000002), (true, 0x80000003), (true, 0x80000005), (true, 0x800000a5),
      (true, 0x8000003c), (true, 0x8000003d)] : List (Bool × Nat)),
      p.1 = true ∧ 0x80000000 ≤ p.2 ∧ p.2 < 2 ^ 32 ∧ p.2.testBit 31 = true := by
    decide
  obtain ⟨hp, hge, hlt, hbit⟩ := hall _ hmem
  refine ⟨hp, hge, hlt, hbit, fun hv => ?_⟩
  obtain ⟨_, _, h0, h1⟩ := verify_bip44_node_eq_true.mp hv
  rw [h0, h1]
  exact ⟨by decide, by decide, hge, hbit⟩

/-- C17, at a concrete input: the Dogecoin row (row 4) and the path `44'/3'/0/0/9`
accepted for it. -/
theorem verify_bip44_node_registry_hardened_witness :
    ∃ coin, (coins sampleH)[4]? = some coin ∧
      verify_bip44_node sampleH coin (pathOf [0x8000002C, 0x80000003, 0, 0, 9]) 5 = true ∧
      0x80000000 ≤ pathOf [0x8000002C, 0x80000003, 0, 0, 9] 0 ∧
      (pathOf [0x8000002C, 0x80000003, 0, 0, 9] 0).testBit 31 = true ∧
      0x80000000 ≤ pathOf [0x8000002C, 0x80000003, 0, 0, 9] 1 ∧
      (pathOf [0x8000002C, 0x80000003, 0, 0, 9] 1).testBit 31 = true :=
  ⟨_, rfl, by decide,
    (verify_bip44_node_registry_hardened sampleH 4 _ _ 5 rfl).2.2.2.2 (by decide)⟩

/-! ### The lookups -/

/-- The table has `COINS_COUNT` rows. -/
theorem coins_length (h : CoinsH) : (coins h).length = COINS_COUNT := rfl

/-- The loop of `coinByShortcut` is a scan with the test `strcmp(shortcut, row) == 0`. -/
theorem coinByShortcut_loop_eq (h : CoinsH) (s : CStr) : ∀ n i,
    coinByShortcut.loop h s n i =
      scanLoop (coins h) (fun c => decide (strcmp s c.coin_shortcut = 0)) n i
  | 0, _ => rfl
  | n + 1, i => by
    unfold coinByShortcut.loop scanLoop
    cases (coins h)[i]? with
    | none => rfl
    | some c => simp only [decide_eq_true_eq, coinByShortcut_loop_eq h s n (i + 1)]

/-- The loop of `coinByAddressType` is a scan with the test `address_type == row`. -/
theorem coinByAddressType_loop_eq (h : CoinsH) (t : Nat) : ∀ n i,
    coinByAddressType.loop h t n i =
      scanLoop (coins h) (fun c => decide (t = c.address_type)) n i
  | 0, _ => rfl
  | n + 1, i => by
    unfold coinByAddressType.loop scanLoop
    cases (coins h)[i]? with
    | none => rfl
    | some c => simp only [decide_eq_true_eq, coinByAddressType_loop_eq h t n (i + 1)]

/-- A scan that covers the rest of the table, started behind rows that all fail the
test, returns the first row of the table that passes it. -/
theorem scanLoop_isFirstRow (tbl : List CoinType) (p : CoinType → Bool) : ∀ n i,
    i + n = tbl.length → (∀ j c, j < i → tbl[j]? = some c → ¬(p c = true)) →
    IsFirstRow tbl (fun c => p c = true) (scanLoop tbl p n i)
  | 0, i, hlen, hbefore => by
    show ∀ (j : Nat) (c : CoinType), tbl[j]? = some c → ¬(p c = true)
    intro j c hj
    have hjl : j < tbl.length := (List.getElem?_eq_some.mp hj).1
    exact hbefore j c (by omega) hj
  | n + 1, i, hlen, hbefore => by
    unfold scanLoop
    have hi : i < tbl.length := by omega
    rw [List.getElem?_eq_getElem hi]
    by_cases hp : p tbl[i] = true
    · simp only [hp, if_true]
      exact ⟨⟨tbl[i], List.getElem?_eq_getElem hi, hp⟩, hbefore⟩
    · simp only [hp]
      apply scanLoop_isFirstRow tbl p n (i + 1) (by omega)
      intro j c hj hjc
      rcases Nat.lt_succ_iff_lt_or_eq.mp hj with hlt | heq
      · exact hbefore j c hlt hjc
      · subst heq
        rw [List.getElem?_eq_getElem hi] at hjc
        rw [← Option.some.inj hjc]
        exact hp

/-- Being the first row is stable under an equivalent test. -/
theorem IsFirstRow_congr {tbl : List CoinType} {p q : CoinType → Prop} {r : Option Nat}
    (hpq : ∀ c, p c ↔ q c) (hr : IsFirstRow tbl p r) : IsFirstRow tbl q r := by
  cases r with
  | none =>
    have hr2 : ∀ (j : Nat) (c : CoinType), tbl[j]? = some c → ¬p c := hr
    exact fun j c hj hq => hr2 j c hj ((hpq c).mpr hq)
  | some k =>
    have hr2 : (∃ c : CoinType, tbl[k]? = some c ∧ p c) ∧
      ∀ (j : Nat) (c : CoinType), j < k → tbl[j]? = some c → ¬p c := hr
    obtain ⟨⟨c, hc, hpc⟩, hbefore⟩ := hr2
    exact ⟨⟨c, hc, (hpq c).mp hpc⟩, fun j c hj hjc hq => hbefore j c hj hjc ((hpq c).mpr hq)⟩

/-- The row returned by `coinByShortcut` for a non-null key is the first row of the
table with that shortcut. -/
theorem coinByShortcut_isFirstRow (h : CoinsH) (s : CStr) :
    IsFirstRow (coins h) (fun c => c.coin_shortcut = s) (coinByShortcut h (some s)) := by
  unfold coinByShortcut
  simp only
  rw [coinByShortcut_loop_eq]
  refine IsFirstRow_congr (fun c => ?_)
    (scanLoop_isFirstRow (coins h) _ COINS_COUNT 0 (by rw [coins_length]; simp)
      (fun j c hj => absurd hj (Nat.not_lt_zero j)))
  simp only [decide_eq_true_eq]
  rw [strcmp_eq_zero_iff]
  exact eq_comm

/-- The row returned by `coinByAddressType` is the first row of the table whose
`address_type` is the argument reduced to 8 bits. -/
theorem coinByAddressType_isFirstRow (h : CoinsH) (t : Nat) :
    IsFirstRow (coins h) (fun c => c.address_type = t % 256) (coinByAddressType h t) := by
  unfold coinByAddressType
  rw [coinByAddressType_loop_eq]
  refine IsFirstRow_congr (fun c => ?_)
    (scanLoop_isFirstRow (coins h) _ COINS_COUNT 0 (by rw [coins_length]; simp)
      (fun j c hj => absurd hj (Nat.not_lt_zero j)))
  simp only [decide_eq_true_eq]
  exact eq_comm

/-- C7: for a non-null key `s`, `coinByShortcut` returns the row of lowest index whose
`coin_shortcut` equals `s`, and no row when none has that shortcut. For the key
`"DASH"` it returns row 5, the row named `"Dash"` with `address_type` 76 and
`bip44_account_path` `0x80000005`, and not row 6, `"tDash"`, which has the same
shortcut. -/
theorem coinByShortcut_first_match (h : CoinsH) (s : CStr) :
    IsFirstRow (coins h) (fun c => c.coin_shortcut = s) (coinByShortcut h (some s)) ∧
      coinByShortcut h (some ⟨"DASH".toList, by decide⟩) = some 5 ∧
      (∃ c, (coins h)[5]? = some c ∧ c.coin_name.chars = "Dash".toList ∧
        c.address_type = 76 ∧ c.bip44_account_path = 0x80000005) ∧
      (∃ c, (coins h)[6]? = some c ∧ c.coin_name.chars = "tDash".toList ∧
        c.coin_shortcut.chars = "DASH".toList) :=
  ⟨coinByShortcut_isFirstRow h s, rfl, ⟨_, rfl, rfl, rfl, rfl⟩, ⟨_, rfl, rfl, rfl⟩⟩

/-- C8, as stated, fails: with a placeholder `NA` that does not fit in 8 bits, the
Ethereum row (row 7) holds `NA` as its `address_type`, and `coinByAddressType` called
with that value returns no row. -/
theorem coinByAddressType_ethereum_not_found :
    (coins sampleH)[7]? = some ethereumRow ∧
      coinByAddressType sampleH ethereumRow.address_type = none := by
  decide

/-- C8, amended: for every row `C` of `coins`, `coinByShortcut(C.coin_shortcut)` returns
a row, the first row of the table with that shortcut; when `C.address_type` fits the
8-bit parameter, `coinByAddressType(C.address_type)` returns a row, the first row of the
table with that `address_type`; and when it does not fit, no row that
`coinByAddressType` returns has that `address_type`. -/
theorem lookups_return_first_row (h : CoinsH) (i : Nat) (C : CoinType)
    (hC : (coins h)[i]? = some C) :
    (∃ k, coinByShortcut h (some C.coin_shortcut) = some k ∧
        IsFirstRow (coins h) (fun c => c.coin_shortcut = C.coin_shortcut) (some k)) ∧
      (C.address_type < 256 →
        ∃ k, coinByAddressType h C.address_type = some k ∧
          IsFirstRow (coins h) (fun c => c.address_type = C.address_type) (some k)) ∧
      (256 ≤ C.address_type →
        ∀ (k : Nat) (c : CoinType), coinByAddressType h C.address_type = some k →
          (coins h)[k]? = some c → c.address_type ≠ C.address_type) := by
  refine ⟨?_, ?_, ?_⟩
  · have hs := coinByShortcut_isFirstRow h C.coin_shortcut
    cases hr : coinByShortcut h (some C.coin_shortcut) with
    | none =>
      rw [hr] at hs
      exact absurd rfl (hs i C hC)
    | some k =>
      rw [hr] at hs
      exact ⟨k, rfl, hs⟩
  · intro hlt
    have hs := coinByAddressType_isFirstRow h C.address_type
    rw [Nat.mod_eq_of_lt hlt] at hs
    cases hr : coinByAddressType h C.address_type with
    | none =>
      rw [hr] at hs
      exact absurd rfl (hs i C hC)
    | some k =>
      rw [hr] at hs
      exact ⟨k, rfl, hs⟩
  · intro hge k c hr hk heq
    have hs := coinByAddressType_isFirstRow h C.address_type
    rw [hr] at hs
    obtain ⟨⟨c2, hc2, hkey⟩, _⟩ := hs
    rw [hk] at hc2
    rw [← Option.some.inj hc2, heq] at hkey
    have := Nat.mod_lt C.address_type (show 0 < 256 by decide)
    omega

/-- C8, amended, at a concrete input: for the tDash row (row 6), whose shortcut is
shared with row 5, both lookups return a row. -/
theorem lookups_return_first_row_witness :
    ∃ C, (coins sampleH)[6]? = some C ∧
      (∃ k, coinByShortcut sampleH (some C.coin_shortcut) = some k ∧
        IsFirstRow (coins sampleH) (fun c => c.coin_shortcut = C.coin_shortcut) (some k)) ∧
      (∃ k, coinByAddressType sampleH C.address_type = some k ∧
        IsFirstRow (coins sampleH) (fun c => c.address_type = C.address_type) (some k)) :=
  ⟨_, rfl, (lookups_return_first_row sampleH 6 _ rfl).1,
    (lookups_return_first_row sampleH 6 _ rfl).2.1 (by decide)⟩

/-- The loop of `coinByName` is a scan with the test `strcmp(name, row) == 0`. -/
theorem coinByName_loop_eq (h : CoinsH) (s : CStr) : ∀ n i,
    coinByName.loop h s n i =
      scanLoop (coins h) (fun c => decide (strcmp s c.coin_name = 0)) n i
  | 0, _ => rfl
  | n + 1, i => by
    unfold coinByName.loop scanLoop
    cases (coins h)[i]? with
    | none => rfl
    | some c => simp only [decide_eq_true_eq, coinByName_loop_eq h s n (i + 1)]

/-- The row returned by `coinByName` for a non-null key is the first row of the table
with that name. -/
theorem coinByName_isFirstRow (h : CoinsH) (s : CStr) :
    IsFirstRow (coins h) (fun c => c.coin_name = s) (coinByName h (some s)) := by
  unfold coinByName
  simp only
  rw [coinByName_loop_eq]
  refine IsFirstRow_congr (fun c => ?_)
    (scanLoop_isFirstRow (coins h) _ COINS_COUNT 0 (by rw [coins_length]; simp)
      (fun j c hj => absurd hj (Nat.not_lt_zero j)))
  simp only [decide_eq_true_eq]
  rw [strcmp_eq_zero_iff]
  exact eq_comm

/-- A lookup whose result is the first matching row finds nothing when no row of the
table matches. -/
theorem IsFirstRow.eq_none {tbl : List CoinType} {p : CoinType → Prop} {r : Option Nat}
    (hr : IsFirstRow tbl p r) (hno : ∀ c ∈ tbl, ¬p c) : r = none := by
  cases r with
  | none => rfl
  | some k =>
    have hr2 : (∃ c : CoinType, tbl[k]? = some c ∧ p c) ∧
      ∀ (j : Nat) (c : CoinType), j < k → tbl[j]? = some c → ¬p c := hr
    obtain ⟨⟨c, hc, hpc⟩, _⟩ := hr2
    exact absurd hpc (hno c (List.getElem?_mem hc))

/-- C12: the lookups report a missing key by returning no row. `coinByShortcut` and
`coinByName` return no row for the null pointer; `coinByShortcut`, `coinByName` and
`coinByAddressType` return no row for a string, respectively a byte, that is the
shortcut, the name, the `address_type` of no row of `coins`. Each lookup is a total
function, so it returns in every case. -/
theorem lookups_not_found (h : CoinsH) :
    coinByShortcut h none = none ∧ coinByName h none = none ∧
      (∀ s : CStr, (∀ c ∈ coins h, c.coin_shortcut ≠ s) → coinByShortcut h (some s) = none) ∧
      (∀ s : CStr, (∀ c ∈ coins h, c.coin_name ≠ s) → coinByName h (some s) = none) ∧
      (∀ t : Nat, t < 256 → (∀ c ∈ coins h, c.address_type ≠ t) →
        coinByAddressType h t = none) ∧
      coinByShortcut sampleH (some ⟨"XRP".toList, by decide⟩) = none ∧
      coinByName sampleH (some ⟨"Zcash".toList, by decide⟩) = none ∧
      coinByAddressType sampleH 1 = none := by
  refine ⟨rfl, rfl, fun s hs => (coinByShortcut_isFirstRow h s).eq_none hs,
    fun s hs => (coinByName_isFirstRow h s).eq_none hs, fun t ht hs => ?_,
    by decide, by decide, by decide⟩
  refine (coinByAddressType_isFirstRow h t).eq_none fun c hc => ?_
  rw [Nat.mod_eq_of_lt ht]
  exact hs c hc

/-- The names of the table, row by row. -/
theorem coins_coin_name (h : CoinsH) :
    (coins h).map (fun c => c.coin_name.chars) =
      ["Bitcoin".toList, "Testnet".toList, "Namecoin".toList, "Litecoin".toList,
        "Dogecoin".toList, "Dash".toList, "tDash".toList, h.ETHEREUM.chars,
        h.ETHEREUM_CLS.chars] := rfl

/-- C2, the code at the failing input: whatever the macros of `coins.h` are, the path
`44'/0'/134217728'/0/0` is accepted for the Bitcoin row (row 0) and the label is
formatted with the account number 0, `"Bitcoin account #0"` at a label size of 50, while
the account segment with only bit 31 cleared is 134217728. The code masks with
`0x7ffffff`, which also clears bits 27 to 30. -/
theorem bip44_node_to_string_account_mask (h : CoinsH) (node_str : List Char) :
    (coins h)[0]? = some bitcoinRow ∧
      bip44_node_to_string h bitcoinRow node_str
          (pathOf [0x8000002C, 0x80000000, 0x88000000, 0, 0]) 5 =
        (true, snprintf_account node_str h.NODE_STRING_LENGTH bitcoinRow.coin_name 0) ∧
      snprintf_account node_str 50 bitcoinRow.coin_name 0 = "Bitcoin account #0".toList ∧
      pathOf [0x8000002C, 0x80000000, 0x88000000, 0, 0] 2 &&& 0x7FFFFFFF = 134217728 := by
  refine ⟨rfl, ?_, rfl, by decide⟩
  have hv : verify_bip44_node h bitcoinRow
      (pathOf [0x8000002C, 0x80000000, 0x88000000, 0, 0]) 5 = true := by
    unfold verify_bip44_node
    rw [if_pos ⟨rfl, rfl⟩, if_neg (fun hc => hc.2 rfl), if_pos ⟨rfl, rfl⟩]
  unfold bip44_node_to_string
  rw [if_pos hv]
  rfl

/-- C11: `bip44_node_to_string` returns the verdict of `verify_bip44_node`: false
exactly when the validator returns false, and then `node_str` is left as it was; true
otherwise. -/
theorem bip44_node_to_string_status (h : CoinsH) (coin : CoinType) (node_str : List Char)
    (address_n : Nat → Nat) (address_n_count : Nat) :
    ((bip44_node_to_string h coin node_str address_n address_n_count).1 = false ↔
        verify_bip44_node h coin address_n address_n_count = false) ∧
      ((bip44_node_to_string h coin node_str address_n address_n_count).1 = true ↔
        verify_bip44_node h coin address_n address_n_count = true) ∧
      (verify_bip44_node h coin address_n address_n_count = false →
        (bip44_node_to_string h coin node_str address_n address_n_count).2 = node_str) := by
  unfold bip44_node_to_string
  cases hv : verify_bip44_node h coin address_n address_n_count <;> simp

/-! ### Decimal rendering -/

/-- With enough fuel, `Nat.toDigitsCore` prepends the same digits whatever the fuel and
the accumulator are. -/
theorem toDigitsCore_fuel (n : Nat) : ∀ (f1 f2 : Nat) (acc : List Char), n < f1 → n < f2 →
    Nat.toDigitsCore 10 f1 n acc = Nat.toDigitsCore 10 f2 n [] ++ acc := by
  induction n using Nat.strong_induction_on with
  | _ n ih =>
    intro f1 f2 acc h1 h2
    obtain ⟨g1, rfl⟩ : ∃ g, f1 = g + 1 := ⟨f1 - 1, by omega⟩
    obtain ⟨g2, rfl⟩ : ∃ g, f2 = g + 1 := ⟨f2 - 1, by omega⟩
    simp only [Nat.toDigitsCore]
    by_cases hz : n / 10 = 0
    · simp [hz]
    · simp only [hz, if_false]
      have hlt : n / 10 < n := by omega
      rw [ih (n / 10) hlt g1 g2 _ (by omega) (by omega),
        ih (n / 10) hlt g2 g2 [Nat.digitChar (n % 10)] (by omega) (by omega)]
      simp

/-- The rendering of a number below 10 is its digit. -/
theorem toDigits_of_lt {n : Nat} (h : n < 10) : Nat.toDigits 10 n = [Nat.digitChar n] := by
  have hz : n / 10 = 0 := by omega
  simp [Nat.toDigits, Nat.toDigitsCore, hz, Nat.mod_eq_of_lt h]

/-- The rendering of a number from 10 on is the rendering of its tenth followed by its last
digit. -/
theorem toDigits_of_ge {n : Nat} (h : 10 ≤ n) :
    Nat.toDigits 10 n = Nat.toDigits 10 (n / 10) ++ [Nat.digitChar (n % 10)] := by
  have hz : n / 10 ≠ 0 := by omega
  unfold Nat.toDigits
  simp only [Nat.toDigitsCore, hz, if_false]
  exact toDigitsCore_fuel (n / 10) n (n / 10 + 1) _ (by omega) (by omega)

/-- A decimal digit character and its value. -/
theorem digitChar_spec {d : Nat} (h : d < 10) :
    (Nat.digitChar d).toNat - '0'.toNat = d ∧ Nat.digitChar d ≠ NUL ∧
      Nat.digitChar d ≠ '.' ∧ Nat.digitChar d ≠ ' ' ∧
      (Nat.digitChar d = '0' ↔ d = 0) := by
  interval_cases d <;> decide

/-- The decimal rendering consists of decimal digits. -/
theorem toDigits_isDigit (n : Nat) : ∀ c ∈ Nat.toDigits 10 n, IsDigit c := by
  induction n using Nat.strong_induction_on with
  | _ n ih =>
    by_cases h : n < 10
    · rw [toDigits_of_lt h]
      intro c hc
      exact ⟨n, h, by simpa using hc⟩
    · rw [toDigits_of_ge (by omega)]
      intro c hc
      rcases List.mem_append.mp hc with hc | hc
      · exact ih (n / 10) (by omega) c hc
      · exact ⟨n % 10, Nat.mod_lt _ (by decide), by simpa using hc⟩

/-- The value of a run extended by one character. -/
theorem digitsValue_append (l : List Char) (c : Char) :
    digitsValue (l ++ [c]) = 10 * digitsValue l + (c.toNat - '0'.toNat) := by
  simp [digitsValue, List.foldl_append]

/-- The decimal rendering of `n` has the value `n`. -/
theorem digitsValue_toDigits (n : Nat) : digitsValue (Nat.toDigits 10 n) = n := by
  induction n using Nat.strong_induction_on with
  | _ n ih =>
    by_cases h : n < 10
    · rw [toDigits_of_lt h]
      have := (digitChar_spec h).1
      simp only [digitsValue, List.foldl_cons, List.foldl_nil]
      omega
    · rw [toDigits_of_ge (by omega), digitsValue_append, ih (n / 10) (by omega),
        (digitChar_spec (Nat.mod_lt n (by decide : 0 < 10))).1]
      omega

/-- The decimal rendering is not empty. -/
theorem toDigits_length_pos (n : Nat) : 0 < (Nat.toDigits 10 n).length := by
  by_cases h : n < 10
  · rw [toDigits_of_lt h]; simp
  · rw [toDigits_of_ge (by omega)]; simp

/-- A number below `10 ^ (k + 1)` has at most `k + 1` digits. -/
theorem toDigits_length_le (k : Nat) : ∀ n, n < 10 ^ (k + 1) →
    (Nat.toDigits 10 n).length ≤ k + 1 := by
  induction k with
  | zero =>
    intro n hn
    rw [toDigits_of_lt (by simpa using hn)]
    simp
  | succ k ih =>
    intro n hn
    by_cases h : n < 10
    · rw [toDigits_of_lt h]; simp
    · rw [toDigits_of_ge (by omega)]
      have : n / 10 < 10 ^ (k + 1) := by
        rw [Nat.div_lt_iff_lt_mul (by decide)]
        rw [pow_succ] at hn
        exact hn
      have := ih (n / 10) this
      simp
      omega

/-! ### Character buffers -/

/-- The length of the string in a buffer that holds `s` and then a `NUL`. -/
theorem strlenBuf_append (s : List Char) (hs : NUL ∉ s) (rest : List Char) :
    strlenBuf (s ++ NUL :: rest) = some s.length := by
  induction s with
  | nil => simp [strlenBuf]
  | cons c cs ih =>
    have hc : c ≠ NUL := fun h => hs (by simp [h])
    have hcs : NUL ∉ cs := fun h => hs (List.mem_cons_of_mem _ h)
    simp [strlenBuf, hc, ih hcs]

/-- The length of the string in a buffer that holds `s` followed by `NUL`s. -/
theorem strlenBuf_pad (s : List Char) (hs : NUL ∉ s) (k : Nat) (hk : 0 < k) :
    strlenBuf (s ++ List.replicate k NUL) = some s.length := by
  obtain ⟨j, rfl⟩ : ∃ j, k = j + 1 := ⟨k - 1, by omega⟩
  rw [List.replicate_succ]
  exact strlenBuf_append s hs _

/-- A write right behind `s` replaces the character there. -/
theorem store_append (s rest : List Char) (x c : Char) :
    store (s ++ x :: rest) s.length c = some (s ++ c :: rest) := by
  unfold store
  rw [if_pos (by simp)]
  simp

/-- A write at the terminator of `s` appends to the string, one `NUL` fewer behind it. -/
theorem store_pad (s : List Char) (k : Nat) (hk : 0 < k) (c : Char) :
    store (s ++ List.replicate k NUL) s.length c =
      some (s ++ [c] ++ List.replicate (k - 1) NUL) := by
  obtain ⟨j, rfl⟩ : ∃ j, k = j + 1 := ⟨k - 1, by omega⟩
  rw [List.replicate_succ, store_append]
  simp

/-- Copying the whole of `src` to the terminator of `s` appends `src` to the string. -/
theorem strncpy_pad (s src : List Char) (k : Nat) (hk : src.length ≤ k) :
    strncpy (s ++ List.replicate k NUL) s.length src src.length =
      some (s ++ src ++ List.replicate (k - src.length) NUL) := by
  unfold strncpy
  rw [if_pos (by simp; omega)]
  simp [List.drop_append_eq_append_drop, List.take_append_eq_append_take]

/-- Clearing part of a cleared buffer leaves it cleared. -/
theorem memset_zero (cap n : Nat) (h : n ≤ cap) :
    memset (List.replicate cap NUL) NUL n = some (List.replicate cap NUL) := by
  unfold memset
  rw [if_pos (by simpa using h)]
  simp [← List.replicate_add]
  omega

/-- The digits written into a cleared buffer. -/
theorem dec64_to_str_pad (v cap : Nat) (h : (Nat.toDigits 10 v).length ≤ cap) :
    dec64_to_str v (List.replicate cap NUL) =
      some (Nat.toDigits 10 v ++ List.replicate (cap - (Nat.toDigits 10 v).length) NUL) := by
  unfold dec64_to_str
  rw [if_pos (by simpa using h)]
  simp

/-- The padding loop turns the `i` `NUL`s behind `s` into `i` characters `'0'`. -/
theorem padLoop_spec (s : List Char) (hs : NUL ∉ s) : ∀ (i : Nat) (z : List Char),
    coin_amnt_to_str.padLoop i (s ++ List.replicate i NUL ++ z) =
      some (s ++ List.replicate i '0' ++ z)
  | 0, z => by simp [coin_amnt_to_str.padLoop]
  | i + 1, z => by
    unfold coin_amnt_to_str.padLoop
    have h1 : s ++ List.replicate (i + 1) NUL ++ z =
        s ++ NUL :: (List.replicate i NUL ++ z) := by
      simp [List.replicate_succ]
    have h2 : s ++ List.replicate (i + 1) NUL ++ z =
        (s ++ List.replicate i NUL) ++ NUL :: z := by
      simp [List.replicate_succ']
    rw [h1, strlenBuf_append s hs]
    simp only
    rw [← h1, h2]
    have h3 : s.length + (i + 1) - 1 = (s ++ List.replicate i NUL).length := by simp
    rw [h3, store_append]
    simp only
    have h4 := padLoop_spec s hs i ('0' :: z)
    rw [List.append_assoc] at h4 ⊢
    rw [h4]
    simp [List.replicate_succ']

/-- The stripping loop, started at the end of a run of `j` characters `'0'` that follows a
character other than `'0'`, turns that run into `NUL`s and stops. -/
theorem stripLoop_spec (s : List Char) (c : Char) (hc : c ≠ '0') :
    ∀ (j : Nat) (z : List Char),
    coin_amnt_to_str.stripLoop ((s ++ [c]).length + j)
        (s ++ [c] ++ List.replicate j '0' ++ z) =
      some (s ++ [c] ++ List.replicate j NUL ++ z)
  | 0, z => by
    have hl : (s ++ [c]).length + 0 = s.length + 1 := by simp
    rw [hl]
    unfold coin_amnt_to_str.stripLoop
    have hget : (s ++ [c] ++ List.replicate 0 '0' ++ z)[s.length]? = some c := by
      rw [List.append_assoc, List.append_assoc,
        List.getElem?_append_right (le_refl _)]
      simp
    rw [hget]
    simp [hc]
  | j + 1, z => by
    have hl : (s ++ [c]).length + (j + 1) = ((s ++ [c]).length + j) + 1 := by omega
    rw [hl]
    unfold coin_amnt_to_str.stripLoop
    have h2 : s ++ [c] ++ List.replicate (j + 1) '0' ++ z =
        (s ++ [c] ++ List.replicate j '0') ++ '0' :: z := by
      simp [List.replicate_succ']
    have hlen : (s ++ [c]).length + j = (s ++ [c] ++ List.replicate j '0').length := by
      simp only [List.length_append, List.length_replicate]
    have hget : (s ++ [c] ++ List.replicate (j + 1) '0' ++ z)[(s ++ [c]).length + j]? =
        some '0' := by
      rw [h2, hlen, List.getElem?_append_right (le_refl _)]
      simp
    rw [hget]
    simp only [if_true]
    have hset : (s ++ [c] ++ List.replicate (j + 1) '0' ++ z).set ((s ++ [c]).length + j) NUL =
        s ++ [c] ++ List.replicate j '0' ++ NUL :: z := by
      rw [h2, hlen]
      simp
    rw [hset, stripLoop_spec s c hc j (NUL :: z)]
    simp [List.replicate_succ']

/-- The string held by a buffer that holds `s` followed by `NUL`s is `s`. -/
theorem cstring_pad (s : List Char) (hs : NUL ∉ s) (k : Nat) :
    cstring (s ++ List.replicate k NUL) = s := by
  unfold cstring
  induction s with
  | nil =>
    cases k with
    | zero => rfl
    | succ k => simp [List.replicate_succ, List.takeWhile]
  | cons c cs ih =>
    have hc : c ≠ NUL := fun h => hs (by simp [h])
    have hcs : NUL ∉ cs := fun h => hs (List.mem_cons_of_mem _ h)
    have hcb : (c != NUL) = true := by simpa using hc
    rw [List.cons_append, List.takeWhile_cons, hcb]
    simp only [if_true]
    rw [ih hcs]

/-! ### Digits of the fraction -/

/-- The decimal rendering holds no `NUL`. -/
theorem toDigits_nonul (n : Nat) : NUL ∉ Nat.toDigits 10 n := by
  intro h
  obtain ⟨d, hd, he⟩ := toDigits_isDigit n NUL h
  exact (digitChar_spec hd).2.1 he.symm

/-- A run of characters `'0'` has the value 0. -/
theorem digitsValue_zeros (l : List Char) (h : ∀ c ∈ l, c = '0') : digitsValue l = 0 := by
  induction l using List.reverseRecOn with
  | nil => rfl
  | append_singleton l c ih =>
    rw [digitsValue_append, ih (fun x hx => h x (List.mem_append_left _ hx)),
      h c (by simp)]
    rfl

/-- The rendering of a positive number has a character other than `'0'`. -/
theorem toDigits_exists_nonzero {n : Nat} (hn : 0 < n) :
    ∃ c ∈ Nat.toDigits 10 n, c ≠ '0' := by
  by_contra hall
  push_neg at hall
  have := digitsValue_zeros _ hall
  rw [digitsValue_toDigits] at this
  omega

/-- A list with a character other than `'0'` splits into its part up to the last such
character, which is what `rdropWhile` keeps, and a run of `'0'`. -/
theorem rdropWhile_zero_split (l : List Char) (h : ∃ c ∈ l, c ≠ '0') :
    ∃ (init : List Char) (c : Char) (j : Nat), c ≠ '0' ∧
      l.rdropWhile (fun c => c == '0') = init ++ [c] ∧
      l = init ++ [c] ++ List.replicate j '0' := by
  induction l using List.reverseRecOn with
  | nil =>
    obtain ⟨c, hc, _⟩ := h
    exact absurd hc (List.not_mem_nil c)
  | append_singleton l x ih =>
    by_cases hx : x = '0'
    · have hl : ∃ c ∈ l, c ≠ '0' := by
        obtain ⟨c, hc, hne⟩ := h
        rcases List.mem_append.mp hc with hc | hc
        · exact ⟨c, hc, hne⟩
        · exact absurd ((List.mem_singleton.mp hc).trans hx) hne
      obtain ⟨init, c, j, hc, hdrop, hsplit⟩ := ih hl
      refine ⟨init, c, j + 1, hc, ?_, ?_⟩
      · rw [List.rdropWhile_concat_pos _ _ _ (by simp [hx]), hdrop]
      · rw [List.replicate_succ', ← List.append_assoc, ← hsplit, hx]
    · refine ⟨l, x, 0, hx, ?_, by simp⟩
      rw [List.rdropWhile_concat_neg _ _ _ (by simp [hx])]

/-! ### The three parts of the amount formatter -/

/-- The whole part: on a cleared buffer, the digits of `w` and the point. -/
theorem wholePart_spec (w cap : Nat) (h : (Nat.toDigits 10 w).length + 1 ≤ cap) :
    coin_amnt_to_str.wholePart w (List.replicate cap NUL) =
      some (Nat.toDigits 10 w ++ ['.'] ++
        List.replicate (cap - ((Nat.toDigits 10 w).length + 1)) NUL) := by
  unfold coin_amnt_to_str.wholePart
  by_cases hw : w > 0
  · rw [if_pos hw, dec64_to_str_pad w cap (by omega)]
    simp only [Option.bind_eq_bind, Option.some_bind]
    rw [strlenBuf_pad _ (toDigits_nonul w) _ (by omega)]
    simp only [Option.some_bind]
    rw [store_pad _ _ (by omega)]
    congr 2
  · have hw0 : w = 0 := by omega
    subst hw0
    rw [if_neg hw]
    have h2 : 2 ≤ cap := h
    have := strncpy_pad [] ['0', '.'] cap h2
    simp only [List.nil_append, List.length_nil] at this
    exact this

/-- The fraction: behind a string `s` in an otherwise cleared buffer with room for eight
digits and a terminator, the fraction of the spec is appended. -/
theorem fractionPart_spec (frac : Nat) (hfrac : frac < 100000000) (s : List Char)
    (hs : NUL ∉ s) (k : Nat) (hk : 8 < k) :
    coin_amnt_to_str.fractionPart frac (List.replicate 10 NUL) (s ++ List.replicate k NUL) =
      some (s ++ Spec.fractionDigits frac ++
        List.replicate (k - (Spec.fractionDigits frac).length) NUL) := by
  unfold coin_amnt_to_str.fractionPart Spec.fractionDigits
  by_cases hf : frac > 0
  · have hf0 : ¬frac = 0 := by omega
    rw [if_pos hf, if_neg hf0]
    have hpos := toDigits_length_pos frac
    have hle : (Nat.toDigits 10 frac).length ≤ 8 := toDigits_length_le 7 frac hfrac
    generalize hFd : Nat.toDigits 10 frac = Fd at hpos hle
    have hFdn : NUL ∉ Fd := hFd ▸ toDigits_nonul frac
    have hnz : ∃ c ∈ Fd, c ≠ '0' := hFd ▸ toDigits_exists_nonzero hf
    have hdec := dec64_to_str_pad frac 10 (by rw [hFd]; omega)
    rw [hFd] at hdec
    rw [hdec]
    simp only [Option.bind_eq_bind, Option.some_bind]
    rw [strlenBuf_pad Fd hFdn _ (by omega)]
    simp only [Option.some_bind]
    have hi : (8 : Int) - (Fd.length : Int) = Int.ofNat (8 - Fd.length) := by
      simp only [Int.ofNat_eq_coe]
      omega
    rw [hi]
    simp only [coin_amnt_to_str.pad]
    have hbuf : s ++ List.replicate k NUL =
        s ++ List.replicate (8 - Fd.length) NUL ++ List.replicate (k - (8 - Fd.length)) NUL := by
      rw [List.append_assoc, ← List.replicate_add]
      congr 2
      omega
    rw [hbuf, padLoop_spec s hs]
    simp only [Option.some_bind]
    have hs2 : NUL ∉ s ++ List.replicate (8 - Fd.length) '0' := by
      intro hmem
      rcases List.mem_append.mp hmem with hmem | hmem
      · exact hs hmem
      · exact absurd (List.eq_of_mem_replicate hmem) (by decide)
    rw [strlenBuf_pad _ hs2 _ (by omega)]
    simp only [Option.some_bind]
    have htake : List.take Fd.length (Fd ++ List.replicate (10 - Fd.length) NUL) = Fd := by
      simp
    rw [htake, strncpy_pad _ Fd _ (by omega)]
    simp only [Option.some_bind]
    have hs3 : NUL ∉ s ++ List.replicate (8 - Fd.length) '0' ++ Fd := by
      intro hmem
      rcases List.mem_append.mp hmem with hmem | hmem
      · exact hs2 hmem
      · exact hFdn hmem
    rw [strlenBuf_pad _ hs3 _ (by omega)]
    simp only [Option.some_bind]
    have hpadnz : ∃ c ∈ List.leftpad 8 '0' Fd, c ≠ '0' := by
      obtain ⟨c, hc, hne⟩ := hnz
      exact ⟨c, by simp [List.leftpad, hc], hne⟩
    obtain ⟨init, c, j, hc, hdrop, hsplit⟩ := rdropWhile_zero_split _ hpadnz
    rw [hdrop]
    have hlen8 : (List.leftpad 8 '0' Fd).length = 8 := by
      rw [List.leftpad_length]; omega
    have hlen : init.length + 1 + j = 8 := by
      rw [hsplit] at hlen8
      simp only [List.length_append, List.length_singleton, List.length_replicate] at hlen8
      exact hlen8
    have hbuf2 : s ++ List.replicate (8 - Fd.length) '0' ++ Fd =
        (s ++ init) ++ [c] ++ List.replicate j '0' := by
      rw [List.append_assoc s, List.append_assoc (s ++ init), List.append_assoc s init,
        ← List.append_assoc init]
      exact congrArg (fun t => s ++ t) hsplit
    rw [hbuf2]
    have hidx : ((s ++ init) ++ [c] ++ List.replicate j '0').length =
        ((s ++ init) ++ [c]).length + j := by
      simp only [List.length_append, List.length_singleton, List.length_replicate]
    rw [hidx, stripLoop_spec (s ++ init) c hc j]
    congr 1
    simp only [List.append_assoc, ← List.replicate_add]
    congr 4
    simp only [List.length_append, List.length_singleton]
    omega
  · have hf0 : frac = 0 := by omega
    rw [if_neg hf, if_pos hf0]
    simp only [Option.bind_eq_bind]
    rw [strlenBuf_pad s hs k (by omega)]
    simp only [Option.some_bind]
    rw [store_pad s k (by omega)]
    rfl

/-- The ticker: behind a string `s` in an otherwise cleared buffer with room for it, the
space and the ticker are appended when the coin has a ticker. -/
theorem shortcutPart_spec (coin : CoinType) (s : List Char) (hs : NUL ∉ s) (k : Nat)
    (hk : (if coin.has_coin_shortcut then 1 + strlen coin.coin_shortcut else 0) < k) :
    coin_amnt_to_str.shortcutPart coin (s ++ List.replicate k NUL) =
      some (s ++ (if coin.has_coin_shortcut then ' ' :: coin.coin_shortcut.chars else []) ++
        List.replicate
          (k - (if coin.has_coin_shortcut then ' ' :: coin.coin_shortcut.chars else []).length)
          NUL) := by
  unfold coin_amnt_to_str.shortcutPart
  by_cases hh : coin.has_coin_shortcut = true
  · simp only [hh, if_true] at hk ⊢
    unfold strlen at hk ⊢
    simp only [Option.bind_eq_bind]
    rw [strlenBuf_pad s hs k (by omega)]
    simp only [Option.some_bind]
    rw [store_pad s k (by omega)]
    simp only [Option.some_bind]
    have hs2 : NUL ∉ s ++ [' '] := by
      intro hmem
      rcases List.mem_append.mp hmem with hmem | hmem
      · exact hs hmem
      · exact absurd (List.mem_singleton.mp hmem) (by decide)
    rw [strlenBuf_pad _ hs2 _ (by omega)]
    simp only [Option.some_bind]
    rw [strncpy_pad _ _ _ (by omega)]
    congr 1
    simp only [List.append_assoc, List.singleton_append, List.length_cons]
    congr 3
    omega
  · simp only [hh]
    simp

/-! ### The amount string of the spec -/

/-- The character `'0'` is a digit. -/
theorem isDigit_zero : IsDigit '0' := ⟨0, by decide, rfl⟩

/-- A digit is not the terminator. -/
theorem IsDigit.ne_nul {c : Char} (h : IsDigit c) : c ≠ NUL := by
  obtain ⟨d, hd, rfl⟩ := h
  exact (digitChar_spec hd).2.1

/-- A digit is not the point. -/
theorem IsDigit.ne_point {c : Char} (h : IsDigit c) : c ≠ '.' := by
  obtain ⟨d, hd, rfl⟩ := h
  exact (digitChar_spec hd).2.2.1

/-- A digit is not the space. -/
theorem IsDigit.ne_space {c : Char} (h : IsDigit c) : c ≠ ' ' := by
  obtain ⟨d, hd, rfl⟩ := h
  exact (digitChar_spec hd).2.2.2.1

/-- Leading characters `'0'` do not change the value of a run. -/
theorem digitsValue_zeros_append (m : Nat) (l : List Char) :
    digitsValue (List.replicate m '0' ++ l) = digitsValue l := by
  induction m with
  | zero => rfl
  | succ m ih =>
    rw [List.replicate_succ, List.cons_append]
    unfold digitsValue at ih ⊢
    rw [List.foldl_cons]
    exact ih

/-- Each trailing `'0'` multiplies the value of a run by 10. -/
theorem digitsValue_append_zeros (l : List Char) (j : Nat) :
    digitsValue (l ++ List.replicate j '0') = digitsValue l * 10 ^ j := by
  induction j with
  | zero => simp
  | succ j ih =>
    rw [List.replicate_succ', ← List.append_assoc, digitsValue_append, ih, pow_succ]
    have : ('0' : Char).toNat - ('0' : Char).toNat = 0 := rfl
    rw [this]
    ring

/-- The two shapes of the fraction: `"0"` for a zero fraction; otherwise the padded
rendering cut after its last character other than `'0'`. -/
theorem fractionDigits_cases (frac : Nat) (hfrac : frac < 100000000) :
    (frac = 0 ∧ Spec.fractionDigits frac = ['0']) ∨
      (0 < frac ∧ ∃ (init : List Char) (c : Char) (j : Nat), c ≠ '0' ∧
        Spec.fractionDigits frac = init ++ [c] ∧
        List.leftpad 8 '0' (Nat.toDigits 10 frac) = init ++ [c] ++ List.replicate j '0' ∧
        init.length + 1 + j = 8) := by
  by_cases hf : frac = 0
  · exact Or.inl ⟨hf, by simp [Spec.fractionDigits, hf]⟩
  · refine Or.inr ⟨by omega, ?_⟩
    have hnz : ∃ c ∈ List.leftpad 8 '0' (Nat.toDigits 10 frac), c ≠ '0' := by
      obtain ⟨c, hc, hne⟩ := toDigits_exists_nonzero (show 0 < frac by omega)
      exact ⟨c, by simp [List.leftpad, hc], hne⟩
    obtain ⟨init, c, j, hc, hdrop, hsplit⟩ := rdropWhile_zero_split _ hnz
    refine ⟨init, c, j, hc, by unfold Spec.fractionDigits; rw [if_neg hf, hdrop], hsplit, ?_⟩
    have hlen8 : (List.leftpad 8 '0' (Nat.toDigits 10 frac)).length = 8 := by
      rw [List.leftpad_length]
      have := toDigits_length_le 7 frac hfrac
      omega
    rw [hsplit] at hlen8
    simp only [List.length_append, List.length_singleton, List.length_replicate] at hlen8
    exact hlen8

/-- The fraction of the spec consists of digits. -/
theorem fractionDigits_isDigit (frac : Nat) (hfrac : frac < 100000000) :
    ∀ c ∈ Spec.fractionDigits frac, IsDigit c := by
  intro c hc
  rcases fractionDigits_cases frac hfrac with ⟨_, h0⟩ | ⟨_, init, x, j, _, hfd, hsplit, _⟩
  · rw [h0] at hc
    rw [List.mem_singleton.mp hc]
    exact isDigit_zero
  · have hmem : c ∈ List.leftpad 8 '0' (Nat.toDigits 10 frac) := by
      rw [hsplit, ← hfd]
      exact List.mem_append_left _ hc
    unfold List.leftpad at hmem
    rcases List.mem_append.mp hmem with hmem | hmem
    · rw [List.eq_of_mem_replicate hmem]
      exact isDigit_zero
    · exact toDigits_isDigit frac c hmem

/-- The fraction of the spec has between 1 and 8 characters. -/
theorem fractionDigits_length (frac : Nat) (hfrac : frac < 100000000) :
    1 ≤ (Spec.fractionDigits frac).length ∧ (Spec.fractionDigits frac).length ≤ 8 := by
  rcases fractionDigits_cases frac hfrac with ⟨_, h0⟩ | ⟨_, init, x, j, _, hfd, _, hlen⟩
  · rw [h0]; decide
  · rw [hfd]
    simp only [List.length_append, List.length_singleton]
    omega

/-- The fraction of the spec, scaled back to eight digits, has the value `frac`. -/
theorem fractionDigits_value (frac : Nat) (hfrac : frac < 100000000) :
    digitsValue (Spec.fractionDigits frac) * 10 ^ (8 - (Spec.fractionDigits frac).length) =
      frac := by
  rcases fractionDigits_cases frac hfrac with ⟨hz, h0⟩ | ⟨_, init, x, j, _, hfd, hsplit, hlen⟩
  · rw [h0, hz]; rfl
  · have hj : 8 - (Spec.fractionDigits frac).length = j := by
      rw [hfd]
      simp only [List.length_append, List.length_singleton]
      omega
    rw [hj, hfd, ← digitsValue_append_zeros, ← hsplit]
    unfold List.leftpad
    rw [digitsValue_zeros_append, digitsValue_toDigits]

/-- The fraction of the spec ends in `'0'` only as `"0"`, which it is exactly for `frac = 0`. -/
theorem fractionDigits_last (frac : Nat) (hfrac : frac < 100000000) :
    ((Spec.fractionDigits frac).getLast? = some '0' → Spec.fractionDigits frac = ['0']) ∧
      (Spec.fractionDigits frac = ['0'] ↔ frac = 0) := by
  rcases fractionDigits_cases frac hfrac with ⟨hz, h0⟩ | ⟨hpos, init, x, j, hx, hfd, _, _⟩
  · exact ⟨fun _ => h0, fun _ => hz, fun _ => h0⟩
  · have hlast : (Spec.fractionDigits frac).getLast? = some x := by
      rw [hfd]; simp
    refine ⟨fun h => ?_, fun h => ?_, fun h => by omega⟩
    · rw [hlast] at h
      exact absurd (Option.some.inj h) hx
    · rw [h] at hlast
      exact absurd (Option.some.inj hlast).symm hx

/-- The run before the point of the amount string is the rendering of the whole part. -/
theorem wholeRun_formatAmount (coin : CoinType) (amnt : Nat) :
    wholeRun (Spec.formatAmount coin amnt) = Nat.toDigits 10 (amnt / 100000000) := by
  unfold wholeRun Spec.formatAmount
  rw [List.append_assoc, List.append_assoc, List.takeWhile_append_of_pos]
  · simp [List.takeWhile]
  · intro c hc
    simpa using (toDigits_isDigit _ c hc).ne_point

/-- The run after the point of the amount string is the fraction of the spec. -/
theorem fractionRun_formatAmount (coin : CoinType) (amnt : Nat) :
    fractionRun (Spec.formatAmount coin amnt) = Spec.fractionDigits (amnt % 100000000) := by
  have hfrac : amnt % 100000000 < 100000000 := Nat.mod_lt _ (by decide)
  unfold fractionRun Spec.formatAmount
  rw [List.append_assoc, List.append_assoc, List.dropWhile_append_of_pos]
  · have hdrop : List.dropWhile (fun c => c != '.')
        (['.'] ++ (Spec.fractionDigits (amnt % 100000000) ++
          if coin.has_coin_shortcut = true then ' ' :: coin.coin_shortcut.chars else [])) =
        '.' :: (Spec.fractionDigits (amnt % 100000000) ++
          if coin.has_coin_shortcut = true then ' ' :: coin.coin_shortcut.chars else []) := by
      simp [List.dropWhile]
    rw [hdrop, List.drop_one, List.tail_cons, List.takeWhile_append_of_pos]
    · split_ifs <;> simp [List.takeWhile]
    · intro c hc
      simpa using (fractionDigits_isDigit _ hfrac c hc).ne_space
  · intro c hc
    simpa using (toDigits_isDigit _ c hc).ne_point

/-- The amount string of the spec holds no `NUL`. -/
theorem formatAmount_nonul (coin : CoinType) (amnt : Nat) :
    NUL ∉ Spec.formatAmount coin amnt := by
  have hfrac : amnt % 100000000 < 100000000 := Nat.mod_lt _ (by decide)
  unfold Spec.formatAmount
  intro h
  rcases List.mem_append.mp h with h | h
  · rcases List.mem_append.mp h with h | h
    · rcases List.mem_append.mp h with h | h
      · exact toDigits_nonul _ h
      · exact absurd (List.mem_singleton.mp h) (by decide)
    · exact (fractionDigits_isDigit _ hfrac _ h).ne_nul rfl
  · split_ifs at h
    · rcases List.mem_cons.mp h with h | h
      · exact absurd h (by decide)
      · exact coin.coin_shortcut.nonul h
    · exact absurd h (List.not_mem_nil _)

/-- On a cleared buffer with room for the untrimmed rendering, `coin_amnt_to_str`
returns, and leaves in the buffer the amount string of the spec followed by `NUL`s. -/
theorem coin_amnt_to_str_buffer (coin : CoinType) (amnt cap : Nat) (len : Int)
    (hlen0 : 0 ≤ len) (hlen : len.toNat ≤ cap) (hroom : roomNeeded coin amnt ≤ cap) :
    coin_amnt_to_str coin amnt (List.replicate cap NUL) len =
      some (Spec.formatAmount coin amnt ++
        List.replicate (cap - (Spec.formatAmount coin amnt).length) NUL) := by
  have hfrac : amnt % 100000000 < 100000000 := Nat.mod_lt _ (by decide)
  have hfl := fractionDigits_length _ hfrac
  unfold roomNeeded COIN_FRACTION at hroom
  unfold coin_amnt_to_str COIN_FRACTION
  rw [if_pos hlen0, memset_zero cap _ hlen, memset_zero 10 10 (le_refl _)]
  simp only [Option.bind_eq_bind, Option.some_bind]
  rw [wholePart_spec _ cap (by omega)]
  simp only [Option.some_bind]
  have hs1 : NUL ∉ Nat.toDigits 10 (amnt / 100000000) ++ ['.'] := by
    intro h
    rcases List.mem_append.mp h with h | h
    · exact toDigits_nonul _ h
    · exact absurd (List.mem_singleton.mp h) (by decide)
  rw [fractionPart_spec _ hfrac _ hs1 _ (by omega)]
  simp only [Option.some_bind]
  have hs2 : NUL ∉ Nat.toDigits 10 (amnt / 100000000) ++ ['.'] ++
      Spec.fractionDigits (amnt % 100000000) := by
    intro h
    rcases List.mem_append.mp h with h | h
    · exact hs1 h
    · exact (fractionDigits_isDigit _ hfrac _ h).ne_nul rfl
  rw [shortcutPart_spec coin _ hs2 _ (by unfold strlen at *; split_ifs at hroom ⊢ <;> omega)]
  unfold Spec.formatAmount
  refine congrArg some (congrArg (fun n => _ ++ List.replicate n NUL) ?_)
  unfold strlen at hroom
  split_ifs at hroom ⊢ <;>
    simp only [List.length_append, List.length_singleton, List.length_cons, List.length_nil] <;>
    omega

/-- The fraction with the room it really uses: behind a string `s` in an otherwise
cleared buffer, one free character and a terminator are enough for a zero fraction,
eight free characters and a terminator for any other. -/
theorem fractionPart_spec_tight (frac : Nat) (hfrac : frac < 100000000) (s : List Char)
    (hs : NUL ∉ s) (k : Nat) (hk : 0 < k) (hk8 : 0 < frac → 8 < k) :
    coin_amnt_to_str.fractionPart frac (List.replicate 10 NUL) (s ++ List.replicate k NUL) =
      some (s ++ Spec.fractionDigits frac ++
        List.replicate (k - (Spec.fractionDigits frac).length) NUL) := by
  by_cases hf : 0 < frac
  · exact fractionPart_spec frac hfrac s hs k (hk8 hf)
  · have hf0 : frac = 0 := by omega
    subst hf0
    unfold coin_amnt_to_str.fractionPart
    rw [if_neg (by decide)]
    simp only [Option.bind_eq_bind]
    rw [strlenBuf_pad s hs k hk]
    simp only [Option.some_bind]
    rw [store_pad s k hk]
    rfl

/-- On a cleared buffer with room for the result and its terminator and, when the
fraction is not zero, for the whole part, the point and eight fraction digits with a
terminator, `coin_amnt_to_str` returns, and leaves in the buffer the amount string of
the spec followed by `NUL`s. -/
theorem coin_amnt_to_str_buffer_tight (coin : CoinType) (amnt cap : Nat) (len : Int)
    (hlen0 : 0 ≤ len) (hlen : len.toNat ≤ cap)
    (hres : (Spec.formatAmount coin amnt).length + 1 ≤ cap)
    (hdigits : 0 < amnt % 100000000 →
      (Nat.toDigits 10 (amnt / 100000000)).length + 1 + 8 + 1 ≤ cap) :
    coin_amnt_to_str coin amnt (List.replicate cap NUL) len =
      some (Spec.formatAmount coin amnt ++
        List.replicate (cap - (Spec.formatAmount coin amnt).length) NUL) := by
  have hfrac : amnt % 100000000 < 100000000 := Nat.mod_lt _ (by decide)
  have hfl := fractionDigits_length _ hfrac
  have hres2 : (Nat.toDigits 10 (amnt / 100000000)).length + 1 +
      (Spec.fractionDigits (amnt % 100000000)).length +
      (if coin.has_coin_shortcut then 1 + strlen coin.coin_shortcut else 0) + 1 ≤ cap := by
    unfold Spec.formatAmount at hres
    unfold strlen
    split_ifs at hres ⊢ <;>
      simp only [List.length_append, List.length_singleton, List.length_cons,
        List.length_nil] at hres <;>
      omega
  unfold coin_amnt_to_str COIN_FRACTION
  rw [if_pos hlen0, memset_zero cap _ hlen, memset_zero 10 10 (le_refl _)]
  simp only [Option.bind_eq_bind, Option.some_bind]
  rw [wholePart_spec _ cap (by omega)]
  simp only [Option.some_bind]
  have hs1 : NUL ∉ Nat.toDigits 10 (amnt / 100000000) ++ ['.'] := by
    intro h
    rcases List.mem_append.mp h with h | h
    · exact toDigits_nonul _ h
    · exact absurd (List.mem_singleton.mp h) (by decide)
  rw [fractionPart_spec_tight _ hfrac _ hs1 _ (by omega) (fun hf => by have := hdigits hf; omega)]
  simp only [Option.some_bind]
  have hs2 : NUL ∉ Nat.toDigits 10 (amnt / 100000000) ++ ['.'] ++
      Spec.fractionDigits (amnt % 100000000) := by
    intro h
    rcases List.mem_append.mp h with h | h
    · exact hs1 h
    · exact (fractionDigits_isDigit _ hfrac _ h).ne_nul rfl
  rw [shortcutPart_spec coin _ hs2 _ (by omega)]
  unfold Spec.formatAmount
  refine congrArg some (congrArg (fun n => _ ++ List.replicate n NUL) ?_)
  split_ifs <;>
    simp only [List.length_append, List.length_singleton, List.length_cons, List.length_nil] <;>
    omega

/-! ### The amount formatter -/

/-- C4, as stated, fails: for the Bitcoin row and 150000000 the result `"1.5 BTC"` has
7 characters, so a zero-initialised destination of 8 characters is large enough for
the result and its terminator; but the function first writes all eight fraction digits
behind `"1."`, at the indices 2 to 9, and so writes outside that destination. In a
destination of 10 characters the eight digits fit, and the `strlen` that follows them
finds no terminator inside the destination. -/
theorem coin_amnt_to_str_overrun :
    Spec.formatAmount bitcoinRow 150000000 = "1.5 BTC".toList ∧
      (Spec.formatAmount bitcoinRow 150000000).length + 1 ≤ 8 ∧
      coin_amnt_to_str bitcoinRow 150000000 (List.replicate 8 NUL) 8 = none ∧
      coin_amnt_to_str bitcoinRow 150000000 (List.replicate 10 NUL) 10 = none := by
  decide

/-- C4, amended: on a zero-initialised destination of `cap` characters that has room
for the result and its terminator and, when the fraction `amnt % 10^8` is not zero,
also for the whole part, the point and all eight fraction digits with a terminator,
`coin_amnt_to_str` with the divisor 100000000 returns and the string it leaves is
exactly the decimal rendering of `amnt / 10^8`, a point, the fraction (`"0"` for a zero
fraction, otherwise the rendering of `amnt % 10^8` left-padded with `'0'` to 8
characters and stripped of trailing `'0'`), and a space and the ticker when the coin
has one. For the Bitcoin row, 123456789 gives `"1.23456789 BTC"`, 150000000 gives
`"1.5 BTC"` and 5 gives `"0.00000005 BTC"`. -/
theorem coin_amnt_to_str_format (coin : CoinType) (amnt cap : Nat) (len : Int)
    (hlen0 : 0 ≤ len) (hlen : len.toNat ≤ cap)
    (hres : (Spec.formatAmount coin amnt).length + 1 ≤ cap)
    (hdigits : 0 < amnt % 100000000 →
      (Nat.toDigits 10 (amnt / 100000000)).length + 1 + 8 + 1 ≤ cap) :
    (∃ out, coin_amnt_to_str coin amnt (List.replicate cap NUL) len = some out ∧
        cstring out = Spec.formatAmount coin amnt) ∧
      (coin_amnt_to_str bitcoinRow 123456789 (List.replicate 27 NUL) 27).map cstring =
        some "1.23456789 BTC".toList ∧
      (coin_amnt_to_str bitcoinRow 150000000 (List.replicate 27 NUL) 27).map cstring =
        some "1.5 BTC".toList ∧
      (coin_amnt_to_str bitcoinRow 5 (List.replicate 27 NUL) 27).map cstring =
        some "0.00000005 BTC".toList := by
  refine ⟨⟨_, coin_amnt_to_str_buffer_tight coin amnt cap len hlen0 hlen hres hdigits, ?_⟩,
    ?_, ?_, ?_⟩
  · exact cstring_pad _ (formatAmount_nonul coin amnt) _
  · decide
  · decide
  · decide

/-- C4, amended, at a concrete input: the Bitcoin row with 150000000 in the smallest
destination the precondition admits, 11 characters. -/
theorem coin_amnt_to_str_format_witness :
    (0 : Int) ≤ 11 ∧ (11 : Int).toNat ≤ 11 ∧
      (Spec.formatAmount bitcoinRow 150000000).length + 1 ≤ 11 ∧
      (0 < 150000000 % 100000000 →
        (Nat.toDigits 10 (150000000 / 100000000)).length + 1 + 8 + 1 ≤ 11) ∧
      ∃ out, coin_amnt_to_str bitcoinRow 150000000 (List.replicate 11 NUL) 11 = some out ∧
        cstring out = Spec.formatAmount bitcoinRow 150000000 :=
  ⟨by decide, by decide, by decide, by decide,
    (coin_amnt_to_str_format bitcoinRow 150000000 11 11 (by decide) (by decide)
      (by decide) (by decide)).1⟩

/-- C5: the string left by `coin_amnt_to_str` reads back as the amount. It is the run
`W` of digits before the point, the point, the run `F` of digits after it, and then
either nothing or the space and the ticker; `F` has between 1 and 8 digits, and
`value(W) * 10^8 + value(F) * 10^(8 - length F) = amnt`. -/
theorem coin_amnt_to_str_roundtrip (coin : CoinType) (amnt cap : Nat) (len : Int)
    (hlen0 : 0 ≤ len) (hlen : len.toNat ≤ cap) (hroom : roomNeeded coin amnt ≤ cap) :
    ∃ out, coin_amnt_to_str coin amnt (List.replicate cap NUL) len = some out ∧
      cstring out = wholeRun (cstring out) ++ ['.'] ++ fractionRun (cstring out) ++
        (if coin.has_coin_shortcut then ' ' :: coin.coin_shortcut.chars else []) ∧
      (∀ c ∈ wholeRun (cstring out), IsDigit c) ∧
      (∀ c ∈ fractionRun (cstring out), IsDigit c) ∧
      1 ≤ (fractionRun (cstring out)).length ∧ (fractionRun (cstring out)).length ≤ 8 ∧
      digitsValue (wholeRun (cstring out)) * 10 ^ 8 +
        digitsValue (fractionRun (cstring out)) *
          10 ^ (8 - (fractionRun (cstring out)).length) = amnt := by
  have hfrac : amnt % 100000000 < 100000000 := Nat.mod_lt _ (by decide)
  refine ⟨_, coin_amnt_to_str_buffer coin amnt cap len hlen0 hlen hroom, ?_⟩
  rw [cstring_pad _ (formatAmount_nonul coin amnt), wholeRun_formatAmount,
    fractionRun_formatAmount]
  refine ⟨rfl, toDigits_isDigit _, fractionDigits_isDigit _ hfrac,
    (fractionDigits_length _ hfrac).1, (fractionDigits_length _ hfrac).2, ?_⟩
  rw [digitsValue_toDigits, fractionDigits_value _ hfrac]
  have := Nat.div_add_mod amnt 100000000
  omega

/-- C5, at a concrete input: the Bitcoin row with 123456789 in a buffer of 27
characters. -/
theorem coin_amnt_to_str_roundtrip_witness :
    (0 : Int) ≤ 27 ∧ (27 : Int).toNat ≤ 27 ∧ roomNeeded bitcoinRow 123456789 ≤ 27 ∧
      ∃ out, coin_amnt_to_str bitcoinRow 123456789 (List.replicate 27 NUL) 27 = some out ∧
        digitsValue (wholeRun (cstring out)) * 10 ^ 8 +
          digitsValue (fractionRun (cstring out)) *
            10 ^ (8 - (fractionRun (cstring out)).length) = 123456789 :=
  ⟨by decide, by decide, by decide,
    let ⟨out, hout, hrest⟩ := coin_amnt_to_str_roundtrip bitcoinRow 123456789 27 27
      (by decide) (by decide) (by decide)
    ⟨out, hout, hrest.2.2.2.2.2⟩⟩

/-- C10: the fraction `F` written by `coin_amnt_to_str`, the characters between the
point and the end or the space before the ticker, has between 1 and 8 digits; it ends
in `'0'` only when it is `"0"`, and it is `"0"` exactly when `amnt` is a multiple of
10^8. The whole part and the point stand in front of it untouched: the string starts
with the rendering of `amnt / 10^8`, the point and `F`. For the Bitcoin row, 0 gives
`"0.0 BTC"` and 150000000 gives `"1.5 BTC"`. -/
theorem coin_amnt_to_str_fraction (coin : CoinType) (amnt cap : Nat) (len : Int)
    (hlen0 : 0 ≤ len) (hlen : len.toNat ≤ cap) (hroom : roomNeeded coin amnt ≤ cap) :
    (∃ out, coin_amnt_to_str coin amnt (List.replicate cap NUL) len = some out ∧
        (∀ c ∈ fractionRun (cstring out), IsDigit c) ∧
        1 ≤ (fractionRun (cstring out)).length ∧ (fractionRun (cstring out)).length ≤ 8 ∧
        ((fractionRun (cstring out)).getLast? = some '0' →
          fractionRun (cstring out) = ['0']) ∧
        (fractionRun (cstring out) = ['0'] ↔ amnt % 100000000 = 0) ∧
        Nat.toDigits 10 (amnt / 100000000) ++ ['.'] ++ fractionRun (cstring out) <+:
          cstring out) ∧
      (coin_amnt_to_str bitcoinRow 0 (List.replicate 27 NUL) 27).map cstring =
        some "0.0 BTC".toList ∧
      (coin_amnt_to_str bitcoinRow 150000000 (List.replicate 27 NUL) 27).map cstring =
        some "1.5 BTC".toList := by
  have hfrac : amnt % 100000000 < 100000000 := Nat.mod_lt _ (by decide)
  refine ⟨⟨_, coin_amnt_to_str_buffer coin amnt cap len hlen0 hlen hroom, ?_⟩, ?_, ?_⟩
  · rw [cstring_pad _ (formatAmount_nonul coin amnt), fractionRun_formatAmount]
    exact ⟨fractionDigits_isDigit _ hfrac, (fractionDigits_length _ hfrac).1,
      (fractionDigits_length _ hfrac).2, (fractionDigits_last _ hfrac).1,
      (fractionDigits_last _ hfrac).2, List.prefix_append _ _⟩
  · decide
  · decide

/-- C10, at a concrete input: the Bitcoin row with 150000000 in a buffer of 27
characters. -/
theorem coin_amnt_to_str_fraction_witness :
    (0 : Int) ≤ 27 ∧ (27 : Int).toNat ≤ 27 ∧ roomNeeded bitcoinRow 150000000 ≤ 27 ∧
      ∃ out, coin_amnt_to_str bitcoinRow 150000000 (List.replicate 27 NUL) 27 = some out ∧
        1 ≤ (fractionRun (cstring out)).length ∧
        (fractionRun (cstring out)).length ≤ 8 :=
  ⟨by decide, by decide, by decide,
    let ⟨out, hout, hrest⟩ := (coin_amnt_to_str_fraction bitcoinRow 150000000 27 27
      (by decide) (by decide) (by decide)).1
    ⟨out, hout, hrest.2.1, hrest.2.2.1⟩⟩

/-! ### Room and termination of the amount formatter -/

/-- The presence flag and the length of the ticker, row by row, whatever the macros
are. -/
theorem coins_coin_shortcut (h : CoinsH) :
    (coins h).map (fun c => (c.has_coin_shortcut, strlen c.coin_shortcut)) =
      [(true, 3), (true, 4), (true, 3), (true, 3), (true, 4), (true, 4), (true, 4),
        (true, 3), (true, 3)] := rfl

/-- Every row of the table has a ticker of at most 4 characters. -/
theorem coins_shortcut_le (h : CoinsH) (c : CoinType) (hc : c ∈ coins h) :
    c.has_coin_shortcut = true ∧ strlen c.coin_shortcut ≤ 4 := by
  have hmem : (c.has_coin_shortcut, strlen c.coin_shortcut) ∈
      (coins h).map (fun c => (c.has_coin_shortcut, strlen c.coin_shortcut)) :=
    List.mem_map_of_mem _ hc
  rw [coins_coin_shortcut] at hmem
  have hall : ∀ p ∈ ([(true, 3), (true, 4), (true, 3), (true, 3), (true, 4), (true, 4),
      (true, 4), (true, 3), (true, 3)] : List (Bool × Nat)), p.1 = true ∧ p.2 ≤ 4 := by
    decide
  exact hall _ hmem

/-- The whole part of a 64-bit amount has at most 12 digits. -/
theorem whole_digits_le {amnt : Nat} (hamnt : amnt < 2 ^ 64) :
    (Nat.toDigits 10 (amnt / 100000000)).length ≤ 12 := by
  apply toDigits_length_le 11
  have h64 : (2 : Nat) ^ 64 = 18446744073709551616 := by norm_num
  have h12 : (10 : Nat) ^ (11 + 1) = 1000000000000 := by norm_num
  rw [h64] at hamnt
  rw [h12]
  omega

/-- C15: for every row of `coins` and every 64-bit amount, `coin_amnt_to_str` on a
zero-initialised destination of 27 characters or more returns without a read or write
outside the destination, and the string it leaves has at most 26 characters: at most
12 whole digits, the point, at most 8 fraction digits, a space and a ticker of at most
4 characters. -/
theorem coin_amnt_to_str_fits (h : CoinsH) (i : Nat) (coin : CoinType) (amnt cap : Nat)
    (len : Int) (hrow : (coins h)[i]? = some coin) (hamnt : amnt < 2 ^ 64)
    (hcap : 27 ≤ cap) (hlen0 : 0 ≤ len) (hlen : len.toNat ≤ cap) :
    (Nat.toDigits 10 (amnt / 100000000)).length ≤ 12 ∧
      (Spec.fractionDigits (amnt % 100000000)).length ≤ 8 ∧
      strlen coin.coin_shortcut ≤ 4 ∧
      ∃ out, coin_amnt_to_str coin amnt (List.replicate cap NUL) len = some out ∧
        out.length = cap ∧ (cstring out).length ≤ 26 := by
  have hfrac : amnt % 100000000 < 100000000 := Nat.mod_lt _ (by decide)
  have hw := whole_digits_le hamnt
  have hf := (fractionDigits_length _ hfrac).2
  obtain ⟨hhas, ht⟩ := coins_shortcut_le h coin (List.getElem?_mem hrow)
  have hroom : roomNeeded coin amnt ≤ cap := by
    unfold roomNeeded COIN_FRACTION
    rw [hhas, if_pos rfl]
    omega
  have hfa : (Spec.formatAmount coin amnt).length ≤ 26 := by
    unfold Spec.formatAmount
    unfold strlen at ht
    rw [hhas, if_pos rfl]
    simp only [List.length_append, List.length_singleton, List.length_cons, List.length_nil]
    omega
  refine ⟨hw, hf, ht, _, coin_amnt_to_str_buffer coin amnt cap len hlen0 hlen hroom, ?_, ?_⟩
  · rw [List.length_append, List.length_replicate]
    omega
  · rw [cstring_pad _ (formatAmount_nonul coin amnt)]
    exact hfa

/-- C15, at a concrete input: the largest 64-bit amount for the Dogecoin row (row 4)
in a destination of 27 characters; the string has 26 characters. -/
theorem coin_amnt_to_str_fits_witness :
    ∃ coin, (coins sampleH)[4]? = some coin ∧ 18446744073709551615 < 2 ^ 64 ∧
      (∃ out, coin_amnt_to_str coin 18446744073709551615 (List.replicate 27 NUL) 27 =
          some out ∧
        out.length = 27 ∧ (cstring out).length ≤ 26) ∧
      (coin_amnt_to_str coin 18446744073709551615 (List.replicate 27 NUL) 27).map cstring =
        some "184467440737.09551615 DOGE".toList :=
  ⟨_, rfl, by decide,
    (coin_amnt_to_str_fits sampleH 4 _ 18446744073709551615 27 27 rfl (by decide)
      (by decide) (by decide) (by decide)).2.2.2,
    by decide⟩

/-- C16: for an amount with a nonzero fraction, the rendering of the fraction written
into the cleared ten-character `buf_fract` has between 1 and 8 digits, so it fits with
its terminator; the padding count `8 - strlen(buf_fract)` is a natural number of at
most 7, so the fraction branch of `coin_amnt_to_str` runs its padding loop as the
countdown from that number, whose body runs once per unit of the count; and on a
buffer that holds a string `s` followed by at least that many `NUL`s the loop returns,
having written that many `'0'` behind `s`. -/
theorem coin_amnt_to_str_pad_count (amnt : Nat) (hfrac : 0 < amnt % COIN_FRACTION) :
    ∃ (buf_fract : List Char) (lf : Nat),
      dec64_to_str (amnt % COIN_FRACTION) (List.replicate 10 NUL) = some buf_fract ∧
        buf_fract.length = 10 ∧ strlenBuf buf_fract = some lf ∧
        1 ≤ lf ∧ lf ≤ 8 ∧ lf + 1 ≤ 10 ∧
        (8 : Int) - (lf : Int) = Int.ofNat (8 - lf) ∧ 8 - lf ≤ 7 ∧
        (∀ buf, coin_amnt_to_str.fractionPart (amnt % COIN_FRACTION)
            (List.replicate 10 NUL) buf =
          (coin_amnt_to_str.padLoop (8 - lf) buf).bind fun buf1 =>
            (strlenBuf buf1).bind fun l =>
              (strncpy buf1 l (buf_fract.take lf) lf).bind fun buf2 =>
                (strlenBuf buf2).bind fun i => coin_amnt_to_str.stripLoop i buf2) ∧
        (∀ (s : List Char) (k : Nat), NUL ∉ s → 8 - lf ≤ k →
          coin_amnt_to_str.pad (8 - (lf : Int)) (s ++ List.replicate k NUL) =
            some (s ++ List.replicate (8 - lf) '0' ++
              List.replicate (k - (8 - lf)) NUL)) := by
  have hlt : amnt % COIN_FRACTION < 100000000 := Nat.mod_lt _ (by decide)
  have hpos := toDigits_length_pos (amnt % COIN_FRACTION)
  have hle : (Nat.toDigits 10 (amnt % COIN_FRACTION)).length ≤ 8 :=
    toDigits_length_le 7 _ hlt
  have hi : (8 : Int) - ((Nat.toDigits 10 (amnt % COIN_FRACTION)).length : Int) =
      Int.ofNat (8 - (Nat.toDigits 10 (amnt % COIN_FRACTION)).length) := by
    simp only [Int.ofNat_eq_coe]
    omega
  have hpad : ∀ buf, coin_amnt_to_str.pad
      (8 - ((Nat.toDigits 10 (amnt % COIN_FRACTION)).length : Int)) buf =
      coin_amnt_to_str.padLoop (8 - (Nat.toDigits 10 (amnt % COIN_FRACTION)).length) buf := by
    intro buf
    rw [hi]
    rfl
  have hdec := dec64_to_str_pad (amnt % COIN_FRACTION) 10 (by omega)
  have hstr := strlenBuf_pad _ (toDigits_nonul (amnt % COIN_FRACTION))
    (10 - (Nat.toDigits 10 (amnt % COIN_FRACTION)).length) (by omega)
  refine ⟨_, (Nat.toDigits 10 (amnt % COIN_FRACTION)).length, hdec, ?_, hstr, hpos, hle,
    by omega, hi, by omega, fun buf => ?_, fun s k hs hk => ?_⟩
  · rw [List.length_append, List.length_replicate]
    omega
  · unfold coin_amnt_to_str.fractionPart
    rw [if_pos hfrac, hdec]
    simp only [Option.bind_eq_bind, Option.some_bind]
    rw [hstr]
    simp only [Option.some_bind]
    rw [hpad]
  · rw [hpad]
    have hbuf : s ++ List.replicate k NUL =
        s ++ List.replicate (8 - (Nat.toDigits 10 (amnt % COIN_FRACTION)).length) NUL ++
          List.replicate (k - (8 - (Nat.toDigits 10 (amnt % COIN_FRACTION)).length)) NUL := by
      rw [List.append_assoc, ← List.replicate_add]
      congr 2
      omega
    rw [hbuf, padLoop_spec s hs]

/-- C16, at a concrete input: the amount 5, whose fraction has one digit; the count is
7 and the loop writes seven `'0'` behind `"0."`. -/
theorem coin_amnt_to_str_pad_count_witness :
    0 < 5 % COIN_FRACTION ∧
      ∃ (buf_fract : List Char) (lf : Nat),
        dec64_to_str (5 % COIN_FRACTION) (List.replicate 10 NUL) = some buf_fract ∧
          strlenBuf buf_fract = some lf ∧ 1 ≤ lf ∧ lf ≤ 8 ∧ 8 - lf ≤ 7 ∧
          coin_amnt_to_str.pad (8 - (lf : Int)) (['0', '.'] ++ List.replicate 25 NUL) =
            some (['0', '.'] ++ List.replicate (8 - lf) '0' ++
              List.replicate (25 - (8 - lf)) NUL) :=
  ⟨by decide,
    let ⟨bf, lf, hdec, _, hstr, h1, h8, _, _, h7, _, hrun⟩ :=
      coin_amnt_to_str_pad_count 5 (by decide)
    ⟨bf, lf, hdec, hstr, h1, h8, h7, hrun ['0', '.'] 25 (by decide) (by omega)⟩⟩

end KeepKey
